import Mathlib

/-!
Verification development for the cryptobib-search engine.

The definitions below are a shallow embedding of the TypeScript sources:
the query worker (`src/lib/search/worker.ts`) and the index builder
(`scripts/build-index.ts`).  JS numbers are modelled as `Nat`/`Int`
(scores are held in exact integer tenths, see `fieldW`),
byte buffers as `List Nat`, and strings as Lean `String`.  JS builtins
(`TextDecoder`, `toLowerCase`, `trim`, `localeCompare`, `JSON.parse`) are
modelled at the granularity the artifacts use: all dictionary terms, keys
and query strings exercised by the theorems are ASCII, where the models
below agree exactly with the builtins.
-/

set_option maxRecDepth 10000

namespace CB

/-- The double-quote character (written via its code point to keep string
literals simple). -/
def qChar : Char := Char.ofNat 34

/-- Bytes of an ASCII string (UTF-8 agrees with code points below 128). -/
def bytesOfAscii (s : String) : List Nat := s.data.map Char.toNat

/-- Models `new TextDecoder().decode` on the byte slices the engine reads.
For ASCII bytes this is exactly UTF-8 decoding; bytes ≥ 128 are mapped to
the code point of the byte, which the theorems never rely on. -/
def asciiDecode (bs : List Nat) : String := ⟨bs.map Char.ofNat⟩

/-- Models `s.normalize('NFKD').replace(/[̀-ͯ]/g, '').toLowerCase()`
from the worker and builder.  On ASCII strings NFKD and the combining-mark
strip are the identity, and `toLowerCase` is ASCII lowercasing, which is
what `Char.toLower` performs. -/
def normalize (s : String) : String := ⟨s.data.map Char.toLower⟩

/-- Characters kept by the tokenizer split `split(/[^a-z0-9]+/)` (the input
is already lowercased). -/
def isAlnumLower (c : Char) : Bool :=
  (decide ('a' ≤ c) && decide (c ≤ 'z')) || (decide ('0' ≤ c) && decide (c ≤ '9'))

/-- Splitting on maximal runs of non-`[a-z0-9]` characters, dropping empty
pieces (the worker filters empties out right after splitting). -/
def splitRunsAux : List Char → List Char → List String
  | [], acc => if acc.isEmpty then [] else [⟨acc.reverse⟩]
  | c :: cs, acc =>
    if isAlnumLower c then splitRunsAux cs (c :: acc)
    else if acc.isEmpty then splitRunsAux cs [] else ⟨acc.reverse⟩ :: splitRunsAux cs []

def splitRuns (cs : List Char) : List String := splitRunsAux cs []

/-- The fixed stopword set `STOP` of the worker and the builder. -/
def STOP : List String :=
  ["the", "a", "an", "and", "or", "of", "on", "for", "to", "in", "by",
   "with", "at", "as", "from", "via"]

/-- `parts.filter(t => t && !STOP.has(t))` applied to a piece of
already-normalized text. -/
def splitFilter (cs : List Char) : List String :=
  (splitRuns cs).filter (fun t => !(STOP.contains t))

/-- Split a character list at the first double quote: returns the piece
before the quote and the remainder starting with the quote (or `[]`). -/
def breakAtQuote : List Char → List Char × List Char
  | [] => ([], [])
  | c :: cs =>
    if c = qChar then ([], c :: cs)
    else
      let r := breakAtQuote cs
      (c :: r.1, r.2)

theorem breakAtQuote_append (cs : List Char) :
    (breakAtQuote cs).1 ++ (breakAtQuote cs).2 = cs := by
  induction cs with
  | nil => rfl
  | cons c cs ih =>
    simp only [breakAtQuote]
    by_cases h : c = qChar
    · simp [h]
    · simp [h, ih]

theorem breakAtQuote_snd_length (cs : List Char) :
    (breakAtQuote cs).2.length ≤ cs.length := by
  conv_rhs => rw [← breakAtQuote_append cs]
  simp

theorem breakAtQuote_snd_head (cs : List Char) :
    (breakAtQuote cs).2 = [] ∨ (breakAtQuote cs).2.head? = some qChar := by
  induction cs with
  | nil => simp [breakAtQuote]
  | cons c cs ih =>
    simp only [breakAtQuote]
    by_cases h : c = qChar
    · simp [h]
    · simpa [h] using ih

/-- Models the worker's phrase-extraction loop
`while ((m = phraseRe.exec(norm)) !== null)` with `phraseRe = /"([^"]+)"/g`:
returns the list of quoted contents (in order) and the unconsumed
characters (the worker keeps a `consumed` index set and rebuilds `rest`
from the unconsumed positions, which yields exactly this remainder).
A quote pair with empty content does not match the regex, in which case the
regex engine resumes the search at the closing quote.  The fuel argument
only bounds the recursion: every step discards at least one character, so
the initial fuel `cs.length` passed by `scanPhrases` is never exhausted. -/
def scanAux : Nat → List Char → List (List Char) × List Char
  | 0, cs => ([], cs)
  | fuel + 1, cs =>
    let br := breakAtQuote cs
    match br.2 with
    | [] => ([], cs)
    | _q :: tail =>
      let br2 := breakAtQuote tail
      match br2.2 with
      | [] => ([], cs)
      | _q2 :: tail2 =>
        if br2.1 = [] then
          -- empty content: no regex match at this quote; resume at the next one
          let r := scanAux fuel br2.2
          (r.1, br.1 ++ [qChar] ++ r.2)
        else
          let r := scanAux fuel tail2
          (br2.1 :: r.1, br.1 ++ r.2)

def scanPhrases (cs : List Char) : List (List Char) × List Char :=
  scanAux cs.length cs

/-- ASCII whitespace trimmed by `String.prototype.trim`. -/
def isWS (c : Char) : Bool :=
  c = ' ' || c = Char.ofNat 9 || c = Char.ofNat 10 || c = Char.ofNat 13 ||
  c = Char.ofNat 11 || c = Char.ofNat 12

/-- Models `norm.trim()` (for ASCII whitespace). -/
def trimWS (s : String) : String :=
  ⟨((s.data.dropWhile isWS).reverse.dropWhile isWS).reverse⟩

/-- Models `s.endsWith('"')`. -/
def endsWithQuote (s : String) : Bool := s.data.getLast? == some qChar

/-- The structured query produced by `tokenizeQuery`.  The source joins each
phrase's tokens with a space; we keep the token list (the joined string is
recovered by interposing spaces and is split again at use sites). -/
structure ParsedQuery where
  phrases : List (List String)
  tokens : List String
  lastIsPfx : Bool
  deriving Repr, DecidableEq

/-- The worker's `tokenizeQuery`: normalize, extract balanced quoted
phrases, tokenize the remainder into bag tokens, and set the
last-token-expands flag (source field name: `lastIsPrefix`), which is
`parts.length > 0 && !norm.trim().endsWith('"')`. -/
def tokenizeQuery (q : String) : ParsedQuery :=
  let norm := normalize q
  let sc := scanPhrases norm.data
  let phrases := (sc.1.map splitFilter).filter (fun p => !p.isEmpty)
  let parts := splitFilter sc.2
  ⟨phrases, parts, !parts.isEmpty && !(endsWithQuote (trimWS norm))⟩

/-- Byte slice `bs.subarray(start, stop)` with the clamping behaviour of
JS typed arrays. -/
def sliceBytes (bs : List Nat) (start stop : Nat) : List Nat :=
  (bs.drop start).take (stop - start)

/-- The worker's `termAt`: decode the dictionary term `i` from the blob. -/
def termAt (blob offs : List Nat) (i : Nat) : String :=
  asciiDecode (sliceBytes blob (offs.getD i 0) (offs.getD (i + 1) 0))

/-- JS string `<` (lexicographic on UTF-16 code units; on the BMP strings
the engine compares this coincides with code-point order). -/
def charListLt : List Char → List Char → Bool
  | [], [] => false
  | [], _ :: _ => true
  | _ :: _, [] => false
  | a :: as, b :: bs =>
    if a.toNat < b.toNat then true
    else if b.toNat < a.toNat then false
    else charListLt as bs

def strLtB (a b : String) : Bool := charListLt a.data b.data

/-- Loop of the worker's `lowerBoundTerm` binary search; the fuel only
bounds the iterations, `hi - lo` decreases every round so `lowerBoundTerm`
passes enough. -/
def lbAux (blob offs : List Nat) (needle : String) : Nat → Nat → Nat → Nat
  | 0, lo, _ => lo
  | fuel + 1, lo, hi =>
    if lo < hi then
      let mid := (lo + hi) / 2
      if strLtB (termAt blob offs mid) needle then lbAux blob offs needle fuel (mid + 1) hi
      else lbAux blob offs needle fuel lo mid
    else lo

/-- The worker's `lowerBoundTerm`. -/
def lowerBoundTerm (blob offs : List Nat) (needle : String) : Nat :=
  lbAux blob offs needle offs.length 0 (offs.length - 1)

/-- Inner loop of the worker's `uvarint` on the byte suffix starting at the
read position: returns the decoded value and the number of bytes consumed.
JS `<<` takes the shift count mod 32 and `>>> 0` truncates to 32 bits,
modelled by the explicit `% 32` and `% 2 ^ 32`.  Running off the end of the
buffer returns the bits accumulated so far (the JS loop simply exits). -/
def uvarintFrom : List Nat → Nat → Nat → Nat × Nat
  | [], x, _ => (x, 0)
  | b :: rest, x, s =>
    if b < 128 then (x ||| ((b <<< (s % 32)) % 2 ^ 32), 1)
    else
      let r := uvarintFrom rest (x ||| (((b &&& 127) <<< (s % 32)) % 2 ^ 32)) (s + 7)
      (r.1, r.2 + 1)

/-- The worker's `uvarint(buf, p)`, returning the value and the new read
position. -/
def uvarint (buf : List Nat) (p : Nat) : Nat × Nat :=
  let r := uvarintFrom (buf.drop p) 0 0
  (r.1, p + r.2)

/-- Decoded posting data plus the final read position of the decoder. -/
structure PostRes where
  docs : List Nat
  poss : List (List Nat)
  endP : Nat
  deriving Repr, DecidableEq

/-- The position-delta inner loop of `readPostings` (`for k < nPos`). -/
def readDeltas (buf : List Nat) : Nat → Nat → Nat → List Nat × Nat
  | 0, p, _ => ([], p)
  | n + 1, p, lastPos =>
    let d := uvarint buf p
    let pos := lastPos + d.1
    let r := readDeltas buf n d.2 pos
    (pos :: r.1, r.2)

/-- Loop of the worker's `readPostings` (`while (p < end)`).  The fuel
argument bounds the number of loop iterations; `readPostings` passes
`len`, which suffices whenever `start + len ≤ buf.length` because every
iteration advances the read position by at least one byte.  (When the
declared range extends beyond the buffer the JS loop does not terminate;
no claim touches that regime.) -/
def rpAux (buf : List Nat) (withPos : Bool) (endPos : Nat) :
    Nat → Nat → Nat → PostRes
  | 0, p, _ => ⟨[], [], p⟩
  | fuel + 1, p, lastDoc =>
    if p < endPos then
      let v := uvarint buf p
      let docId := lastDoc + v.1
      if withPos then
        let n := uvarint buf v.2
        let pr := readDeltas buf n.1 n.2 0
        let r := rpAux buf withPos endPos fuel pr.2 docId
        ⟨docId :: r.docs, pr.1 :: r.poss, r.endP⟩
      else
        let tf := uvarint buf v.2
        let r := rpAux buf withPos endPos fuel tf.2 docId
        ⟨docId :: r.docs, r.poss, r.endP⟩
    else ⟨[], [], p⟩

/-- The worker's `readPostings(postings, start, len, withPositions)`. -/
def readPostings (buf : List Nat) (start len : Nat) (withPos : Bool) : PostRes :=
  rpAux buf withPos (start + len) len start 0

/-- Loop of the builder's `writeUVarint`; the value shrinks by a factor
128 every round, so the initial fuel `n` is never exhausted. -/
def wuAux : Nat → Nat → List Nat
  | 0, n => [n]
  | fuel + 1, n =>
    if n ≥ 128 then ((n &&& 127) ||| 128) :: wuAux fuel (n >>> 7) else [n]

/-- The builder's `writeUVarint` (the bytes pushed for one value). -/
def writeUVarint (n : Nat) : List Nat := wuAux n n

/-- Position deltas emitted by the builder (`for p of arr` with `lastPos`). -/
def encDeltas (lastPos : Nat) : List Nat → List Nat
  | [] => []
  | p :: ps => writeUVarint (p - lastPos) ++ encDeltas p ps

/-- The builder's `encodePositions` on the doc entries sorted by docId
(the source sorts `rec.entries()` ascending before this loop); `lastDoc`
starts at 0. -/
def encodePositions (lastDoc : Nat) : List (Nat × List Nat) → List Nat
  | [] => []
  | (docId, pos) :: rest =>
    writeUVarint (docId - lastDoc) ++ writeUVarint pos.length ++
      encDeltas 0 pos ++ encodePositions docId rest

/-- The builder's `encodeTF` on the doc entries sorted by docId. -/
def encodeTF (lastDoc : Nat) : List (Nat × Nat) → List Nat
  | [] => []
  | (docId, tf) :: rest =>
    writeUVarint (docId - lastDoc) ++ writeUVarint tf ++ encodeTF docId rest

/-- Boolean strict monotonicity of a list of numbers, used to state the
well-formedness of the builder's doc-entry maps (docIds strictly
increasing, positions strictly increasing within a doc). -/
def strictIncr : List Nat → Bool
  | [] => true
  | [_] => true
  | a :: b :: l => decide (a < b) && strictIncr (b :: l)

/-- Dictionary view of one tier: packed term blob, offsets, and the
in-memory prefix map built at load time (source field name: `prefixMap`;
keys map to the `[lo, hi)` termId range sharing the key). -/
structure DictView where
  termBlob : List Nat
  termOffsets : List Nat
  pfxMap : List (String × Nat × Nat)
  deriving Repr, DecidableEq

/-- `Map.get` on the prefix map. -/
def pfxGet (m : List (String × Nat × Nat)) (k : String) : Option (Nat × Nat) :=
  (m.find? (fun e => e.1 == k)).map (·.2)

/-- `Map.set` on the prefix map (overwrites an existing key). -/
def mapSet (m : List (String × Nat × Nat)) (k : String) (v : Nat × Nat) :
    List (String × Nat × Nat) :=
  if m.any (fun e => e.1 == k) then m.map (fun e => if e.1 == k then (k, v) else e)
  else m ++ [(k, v)]

/-- Core tier state: dictionary plus the six per-field pointer arrays and
the postings blob (source: `state.core`). -/
structure CoreTier where
  dict : DictView
  ptrTitleStart : List Nat
  ptrTitleLen : List Nat
  ptrAuthorsStart : List Nat
  ptrAuthorsLen : List Nat
  ptrKeyStart : List Nat
  ptrKeyLen : List Nat
  postings : List Nat
  deriving Repr, DecidableEq

/-- Extended tier state (source: `state.ext`). -/
structure ExtTier where
  dict : DictView
  ptrVenueStart : List Nat
  ptrVenueLen : List Nat
  ptrYearStart : List Nat
  ptrYearLen : List Nat
  ptrDoiStart : List Nat
  ptrDoiLen : List Nat
  postings : List Nat
  deriving Repr, DecidableEq

/-- A docstore record (source type `Entry`; the optional `highlight` field
is never produced by the worker and is omitted). -/
structure Entry where
  id : Nat
  key : String
  title : String
  authors_str : String
  venue : Option String := none
  year : Option Int := none
  page_range : Option String := none
  doi : Option String := none
  deriving Repr, DecidableEq

/-- The worker's loaded state after initialization. -/
structure EngineState where
  numDocs : Nat
  core : CoreTier
  extLoaded : Bool
  ext : ExtTier
  docIndex : List Nat
  docBlob : List Nat
  keyToId : List (String × Nat)
  deriving Repr, DecidableEq

/-- `token.slice(0, n)`. -/
def strTake (s : String) (n : Nat) : String := ⟨s.data.take n⟩

/-- The `'￿'` sentinel appended for the upper bound of a range. -/
def maxChar : Char := Char.ofNat 65535

/-- The worker's `resolveTermRanges` for one tier: exact lower-bound hit
plus (for the terminal token, when the flag is set) the capped expansion
over the range `[lower_bound(token), lower_bound(token + MAX_SUFFIX))`,
gated on the prefix map containing the first `min(4, |token|)` characters
of the token, skipping `exactId` inside the loop. -/
def resolveTermRanges (dv : DictView) (token : String) (pfx : Bool) : List Nat :=
  let exactId := lowerBoundTerm dv.termBlob dv.termOffsets token
  let exactMatch :=
    decide (exactId < dv.termOffsets.length - 1) &&
    (termAt dv.termBlob dv.termOffsets exactId == token)
  let base := if exactMatch then [exactId] else []
  if pfx && decide (0 < token.length) then
    match pfxGet dv.pfxMap (strTake token (min 4 token.length)) with
    | some _range =>
      let l := lowerBoundTerm dv.termBlob dv.termOffsets token
      let r := lowerBoundTerm dv.termBlob dv.termOffsets (token.push maxChar)
      base ++ ((List.range' l (min r (l + 128) - l)).filter (fun i => i != exactId))
    | none => base
  else base

/-- Field tags tracked by the scorer (source: the `src` strings). -/
inductive Fld
  | title
  | authors
  | key
  | venue
  | year
  | doi
  deriving Repr, DecidableEq

/-- The fixed field-weight table `FIELD_W`
(`title=3.0, authors=1.8, venue=1.2, year=0.8, key=0.8, doi=0.8`),
represented exactly in integer tenths (`tenths` recovers the value):
every weight is a multiple of 0.1 and the engine only adds and compares
weights, so this integer representation is equality- and
order-faithful. -/
def fieldW : Fld → Int
  | .title => 30
  | .authors => 18
  | .venue => 12
  | .year => 8
  | .key => 8
  | .doi => 8

/-- The rational value of a score held in tenths. -/
def tenths (n : Int) : ℚ := (n : ℚ) / 10

/-- One decoded (docs, field) record produced by `postingsForCoreTerm` /
`postingsForExtTerm`. -/
structure FieldPost where
  docs : List Nat
  src : Fld
  poss : List (List Nat)
  deriving Repr, DecidableEq

/-- The worker's `postingsForCoreTerm`. -/
def postingsForCoreTerm (c : CoreTier) (termId : Nat) : List FieldPost :=
  (if c.ptrTitleLen.getD termId 0 ≠ 0 then
    let r := readPostings c.postings (c.ptrTitleStart.getD termId 0)
      (c.ptrTitleLen.getD termId 0) true
    [⟨r.docs, .title, r.poss⟩]
  else []) ++
  (if c.ptrAuthorsLen.getD termId 0 ≠ 0 then
    let r := readPostings c.postings (c.ptrAuthorsStart.getD termId 0)
      (c.ptrAuthorsLen.getD termId 0) true
    [⟨r.docs, .authors, r.poss⟩]
  else []) ++
  (if c.ptrKeyLen.getD termId 0 ≠ 0 then
    let r := readPostings c.postings (c.ptrKeyStart.getD termId 0)
      (c.ptrKeyLen.getD termId 0) false
    [⟨r.docs, .key, r.poss⟩]
  else [])

/-- The worker's `postingsForExtTerm`. -/
def postingsForExtTerm (e : ExtTier) (termId : Nat) : List FieldPost :=
  (if e.ptrVenueLen.getD termId 0 ≠ 0 then
    let r := readPostings e.postings (e.ptrVenueStart.getD termId 0)
      (e.ptrVenueLen.getD termId 0) false
    [⟨r.docs, .venue, r.poss⟩]
  else []) ++
  (if e.ptrYearLen.getD termId 0 ≠ 0 then
    let r := readPostings e.postings (e.ptrYearStart.getD termId 0)
      (e.ptrYearLen.getD termId 0) false
    [⟨r.docs, .year, r.poss⟩]
  else []) ++
  (if e.ptrDoiLen.getD termId 0 ≠ 0 then
    let r := readPostings e.postings (e.ptrDoiStart.getD termId 0)
      (e.ptrDoiLen.getD termId 0) false
    [⟨r.docs, .doi, r.poss⟩]
  else [])

/-- Minimum of the current heads, as in the worker's `mergeSortedUnique`
scan over its iterator vector. -/
def muMin (ls : List (List Nat)) : Option Nat :=
  ls.foldl
    (fun acc l =>
      match l.head?, acc with
      | some h, some m => some (min m h)
      | some h, none => some h
      | none, a => a)
    none

/-- Advance every iterator whose current element equals the emitted
minimum. -/
def muAdvance (ls : List (List Nat)) (m : Nat) : List (List Nat) :=
  ls.map (fun l =>
    match l.head? with
    | some h => if h = m then l.tail else l
    | none => l)

/-- Loop of `mergeSortedUnique`; the fuel is the total number of remaining
elements, which suffices because each round consumes at least one. -/
def muAux : Nat → List (List Nat) → List Nat
  | 0, _ => []
  | fuel + 1, ls =>
    match muMin ls with
    | none => []
    | some m => m :: muAux fuel (muAdvance ls m)

/-- The worker's `mergeSortedUnique`. -/
def mergeSortedUnique (ls : List (List Nat)) : List Nat :=
  muAux (ls.map List.length).sum ls

/-- Per-token doc set and the set of field tags any of the token's resolved
termIds touched (source: `tokenDocSets` entries; `srcs` is a JS `Set`
with insertion order, modelled as a duplicate-free list). -/
structure TokSet where
  docs : List Nat
  srcs : List Fld
  deriving Repr, DecidableEq

/-- `Set.add` preserving insertion order. -/
def addSrc (srcs : List Fld) (f : Fld) : List Fld :=
  if srcs.contains f then srcs else srcs ++ [f]

/-- Build one token's doc set: union the decoded doc lists across the
token's core and (when loaded) extended termIds, collecting field tags. -/
def buildTokSet (c : CoreTier) (e : ExtTier) (extOn : Bool)
    (coreIds extIds : List Nat) : TokSet :=
  let fps := (coreIds.map (postingsForCoreTerm c)).flatten ++
    (if extOn then (extIds.map (postingsForExtTerm e)).flatten else [])
  ⟨mergeSortedUnique (fps.map (·.docs)), fps.foldl (fun a fp => addSrc a fp.src) []⟩

/-- Loop of the worker's two-pointer sort-merge intersection; each round
advances at least one pointer, so the fuel passed by `intersectSorted`
suffices. -/
def isAux : Nat → List Nat → List Nat → List Nat
  | 0, _, _ => []
  | _ + 1, [], _ => []
  | _ + 1, _ :: _, [] => []
  | fuel + 1, a :: as, b :: bs =>
    if a = b then a :: isAux fuel as bs
    else if a < b then isAux fuel as (b :: bs)
    else isAux fuel (a :: as) bs

/-- The worker's sort-merge intersection of two sorted doc lists. -/
def intersectSorted (a b : List Nat) : List Nat :=
  isAux (a.length + b.length) a b

/-- Sequential intersection over the (length-sorted) token doc sets. -/
def intersectAll : List (List Nat) → List Nat
  | [] => []
  | s :: rest => rest.foldl intersectSorted s

/-- Loop of the worker's `binarySearch`; fuel bounds iterations (the
interval shrinks every round, so `arr.length + 1` suffices). -/
def bsAux (arr : List Nat) (x : Int) : Nat → Int → Int → Int
  | 0, _, _ => -1
  | fuel + 1, lo, hi =>
    if lo ≤ hi then
      let mid := (lo + hi) / 2
      let v : Int := (arr.getD mid.toNat 0 : Nat)
      if v = x then mid
      else if v < x then bsAux arr x fuel (mid + 1) hi
      else bsAux arr x fuel lo (mid - 1)
    else -1

/-- The worker's `binarySearch` (index of `x` or `-1`). -/
def binarySearch (arr : List Nat) (x : Int) : Int :=
  bsAux arr x (arr.length + 1) 0 ((arr.length : Int) - 1)

/-- Stable insertion of `a` into `l`: `a` goes before the first element
`b` with `le a b`. -/
def insertLe {α : Type} (le : α → α → Bool) (a : α) : List α → List α
  | [] => [a]
  | b :: bs => if le a b then a :: b :: bs else b :: insertLe le a bs

/-- Stable sort by a boolean comparator-`≤`.  JS `Array.prototype.sort`
is a stable sort by the comparator; for a consistent comparator the
stably sorted order is unique, so any stable algorithm models it, and
insertion sort keeps the proofs elementary. -/
def stableSortBy {α : Type} (le : α → α → Bool) : List α → List α
  | [] => []
  | x :: xs => insertLe le x (stableSortBy le xs)

/-- The scorer's weight chain
(`title → authors → venue → year → key → doi`). -/
def chainW (srcs : List Fld) : Int :=
  if srcs.contains .title then fieldW .title
  else if srcs.contains .authors then fieldW .authors
  else if srcs.contains .venue then fieldW .venue
  else if srcs.contains .year then fieldW .year
  else if srcs.contains .key then fieldW .key
  else if srcs.contains .doi then fieldW .doi
  else 0

/-- Score of one surviving doc: each token doc set containing the doc
contributes the chained weight of its tag set. -/
def scoreDoc (sortedSets : List TokSet) (id : Nat) : Int :=
  sortedSets.foldl
    (fun sc s => if binarySearch s.docs (id : Int) ≥ 0 then sc + chainW s.srcs else sc) 0

/-- The conjunction and scoring stage: sort token doc sets by ascending
length (stable, as JS `Array.prototype.sort`), intersect sequentially,
and score each surviving doc. -/
def scoredResults (sets : List TokSet) : List (Nat × Int) :=
  let sorted := stableSortBy (fun a b => decide (a.docs.length ≤ b.docs.length)) sets
  (intersectAll (sorted.map (·.docs))).map (fun id => (id, scoreDoc sorted id))

/-- The worker's `getEntryById`: range-check the id, slice the docstore
blob, and parse.  `parse` models `JSON.parse` of the trimmed slice text
together with the surrounding `try/catch` (a parse failure is `none`). -/
def getEntryById (st : EngineState) (parse : String → Option Entry) (id : Int) :
    Option Entry :=
  if id < 0 ∨ (st.numDocs : Int) ≤ id then none
  else
    let i := id.toNat
    parse (trimWS (asciiDecode
      (sliceBytes st.docBlob (st.docIndex.getD i 0) (st.docIndex.getD (i + 1) 0))))

/-- The `get` message handler: a string key is mapped through `keyToId`
with `-1` as the fallback. -/
def handleGet (st : EngineState) (parse : String → Option Entry)
    (idOrKey : Sum Int String) : Option Entry :=
  match idOrKey with
  | .inl id => getEntryById st parse id
  | .inr key =>
    let id := ((st.keyToId.find? (fun e => e.1 == key)).map (·.2)).elim (-1) (fun n => (n : Int))
    getEntryById st parse id

/-- Primary collation weight of a character: models the default-locale
(root) collation used by `String.prototype.localeCompare` on the ASCII
range: letters compare case-insensitively at this level and sort after
digits, digits after everything else. -/
def primW (c : Char) : Nat :=
  if 97 ≤ c.toNat ∧ c.toNat ≤ 122 then 3000000 + c.toNat
  else if 65 ≤ c.toNat ∧ c.toNat ≤ 90 then 3000000 + (c.toNat + 32)
  else if 48 ≤ c.toNat ∧ c.toNat ≤ 57 then 2000000 + c.toNat
  else c.toNat

/-- Tertiary collation weight: lowercase sorts before uppercase when the
primary levels tie. -/
def tertW (c : Char) : Nat := if 65 ≤ c.toNat ∧ c.toNat ≤ 90 then 1 else 0

/-- Lexicographic comparison of weight lists. -/
def listCmpN : List Nat → List Nat → Ordering
  | [], [] => .eq
  | [], _ :: _ => .lt
  | _ :: _, [] => .gt
  | a :: as, b :: bs => (compare a b).then (listCmpN as bs)

/-- Model of `a.localeCompare(b)` under the default (root) locale,
restricted to ASCII: compare the whole primary level first, then the
tertiary level.  Only the sign of the JS result is observable. -/
def jsLocaleCmp (a b : String) : Ordering :=
  (listCmpN (a.data.map primW) (b.data.map primW)).then
    (listCmpN (a.data.map tertW) (b.data.map tertW))

/-- The result comparator of `results.sort`: score descending, then year
descending (missing year read as 0), then title by `localeCompare`, then
key by `localeCompare`; entries are fetched through the docstore. -/
def resCmp (st : EngineState) (parse : String → Option Entry)
    (a b : Nat × Int) : Ordering :=
  let o1 := compare b.2 a.2
  if o1 ≠ .eq then o1
  else
    let ea := getEntryById st parse (a.1 : Int)
    let eb := getEntryById st parse (b.1 : Int)
    let ya := (ea.bind (·.year)).getD 0
    let yb := (eb.bind (·.year)).getD 0
    let o2 := compare yb ya
    if o2 ≠ .eq then o2
    else
      let ta := (ea.map (·.title)).getD ""
      let tb := (eb.map (·.title)).getD ""
      if ta ≠ tb then jsLocaleCmp ta tb
      else
        let ka := (ea.map (·.key)).getD ""
        let kb := (eb.map (·.key)).getD ""
        jsLocaleCmp ka kb

/-- Boolean `≤` view of the comparator, for the (stable) sort. -/
def resLe (st : EngineState) (parse : String → Option Entry)
    (a b : Nat × Int) : Bool :=
  resCmp st parse a b ≠ .gt

/-- `results.sort(...)`: JS sort is stable, so it computes the stable
sort by the comparator. -/
def sortResults (st : EngineState) (parse : String → Option Entry)
    (l : List (Nat × Int)) : List (Nat × Int) :=
  stableSortBy (resLe st parse) l

/-- `true` on `p l` for some suffix `l` of the input (regex `.test`). -/
def anySuffix (p : List Char → Bool) : List Char → Bool
  | [] => p []
  | c :: cs => p (c :: cs) || anySuffix p cs

def isDigitB (c : Char) : Bool := decide ('0' ≤ c) && decide (c ≤ '9')

def isAsciiLetterB (c : Char) : Bool :=
  (decide ('a' ≤ c) && decide (c ≤ 'z')) || (decide ('A' ≤ c) && decide (c ≤ 'Z'))

def isWordCharB (c : Char) : Bool := isAsciiLetterB c || isDigitB c || c = '_'

/-- `/^\d{4}$/.test(t)`. -/
def testYear4 (t : String) : Bool := t.data.length = 4 && t.data.all isDigitB

/-- `/doi|10\.\d/.test(t)`. -/
def testDoiPat (t : String) : Bool :=
  anySuffix
    (fun l =>
      match l with
      | 'd' :: 'o' :: 'i' :: _ => true
      | '1' :: '0' :: '.' :: d :: _ => isDigitB d
      | _ => false)
    t.data

/-- `/[A-Za-z]+:\w+/.test(t)` (a letter directly before a colon with a
word character after is equivalent to the full pattern for `.test`). -/
def testColonPat (t : String) : Bool :=
  anySuffix
    (fun l =>
      match l with
      | a :: ':' :: w :: _ => isAsciiLetterB a && isWordCharB w
      | _ => false)
    t.data

/-- The tier classifier `needsExt` of `handleSearch`. -/
def needsExt (opts : Option Bool) (tokens : List String) : Bool :=
  opts.getD false ||
    tokens.any (fun t => testYear4 t || testDoiPat t || testColonPat t)

/-- Search options (source type `SearchOpts`; `fuzzy` is reserved and
unused by the worker). -/
structure SearchOpts where
  limit : Option Int := none
  fuzzy : Option Bool := none
  useExtended : Option Bool := none

/-- Whether the extended tier is in use for this query: it is loaded
beforehand or `ensureExtendedLoaded` runs because the classifier fired. -/
def extOnFor (st : EngineState) (opts : SearchOpts) (tq : ParsedQuery) : Bool :=
  st.extLoaded || needsExt opts.useExtended tq.tokens

/-- Resolve every bag token (expansion applies to the terminal token when
the flag is set) and build its doc set. -/
def tokenSets (st : EngineState) (tq : ParsedQuery) (extOn : Bool) : List TokSet :=
  let n := tq.tokens.length
  tq.tokens.enum.map (fun p =>
    let pfx := tq.lastIsPfx && decide (p.1 + 1 = n)
    buildTokSet st.core st.ext extOn (resolveTermRanges st.core.dict p.2 pfx)
      (if extOn then resolveTermRanges st.ext.dict p.2 pfx else []))

/-- The ranked (docId, score) list computed by `handleSearch` before
truncation and materialization. -/
def searchRanked (st : EngineState) (parse : String → Option Entry)
    (q : String) (opts : SearchOpts) : List (Nat × Int) :=
  let tq := tokenizeQuery q
  sortResults st parse (scoredResults (tokenSets st tq (extOnFor st opts tq)))

/-- The worker's `handleSearch`: parse, early-return on the empty query or
an empty token doc set, rank, truncate to the clamped limit, and
materialize entries.  A query with phrases but no bag tokens reaches
`tokenDocSets[0].docs` on an empty array and throws a `TypeError`, which
the `onmessage` handler surfaces as an error response. -/
def handleSearch (st : EngineState) (parse : String → Option Entry)
    (q : String) (opts : SearchOpts) : Except String (List Entry) :=
  let limit : Int := max 1 (min 1000 (opts.limit.getD 50))
  let tq := tokenizeQuery q
  if tq.tokens.isEmpty && tq.phrases.isEmpty then .ok []
  else
    let sets := tokenSets st tq (extOnFor st opts tq)
    if sets.any (fun s => s.docs.isEmpty) then .ok []
    else if sets.isEmpty then .error "TypeError: undefined has no properties"
    else
      .ok (((searchRanked st parse q opts).take limit.toNat).filterMap
        (fun r => getEntryById st parse (r.1 : Int)))

/-- Little-endian u32 read at byte offset `o` (offsets used in range). -/
def u32At (bs : List Nat) (o : Nat) : Nat :=
  bs.getD o 0 + 256 * bs.getD (o + 1) 0 + 65536 * bs.getD (o + 2) 0 +
    16777216 * bs.getD (o + 3) 0

/-- `DataView.getUint32` with its bounds check (`RangeError` past the
end). -/
def getU32 (bs : List Nat) (o : Nat) : Except String Nat :=
  if o + 4 ≤ bs.length then .ok (u32At bs o) else .error "RangeError"

/-- `new Uint32Array(buffer, o, n)` with its bounds check; byte offsets
used by the loader are 4-aligned. -/
def u32Array (bs : List Nat) (o n : Nat) : Except String (List Nat) :=
  if o + 4 * n ≤ bs.length then .ok ((List.range n).map (fun i => u32At bs (o + 4 * i)))
  else .error "RangeError"

/-- Loop of the loader's prefix-map construction; the fuel counts the
remaining terms (`buildPfxMap` passes `numTerms`, matching `i = 0`). -/
def buildPfxAux (blob offs : List Nat) (numTerms : Nat) :
    Nat → Nat → String → Nat → List (String × Nat × Nat) → List (String × Nat × Nat)
  | 0, _, lastP, lastS, acc => mapSet acc lastP (lastS, numTerms)
  | fuel + 1, i, lastP, lastS, acc =>
    if i < numTerms then
      let term := termAt blob offs i
      let pref := strTake term (min 4 term.length)
      if pref ≠ lastP then
        buildPfxAux blob offs numTerms fuel (i + 1) pref i
          (if 0 < i then mapSet acc lastP (lastS, i) else acc)
      else buildPfxAux blob offs numTerms fuel (i + 1) lastP lastS acc
    else mapSet acc lastP (lastS, numTerms)

/-- The loader's prefix map over 1..4 character keys. -/
def buildPfxMap (blob offs : List Nat) (numTerms : Nat) :
    List (String × Nat × Nat) :=
  buildPfxAux blob offs numTerms numTerms 0 "" 0 []

/-- Core `meta.json` fields used by the loader. -/
structure Meta where
  version : String
  numDocs : Nat

/-- An unloaded extended tier (the zero-initialized `state.ext`). -/
def emptyExt : ExtTier :=
  ⟨⟨[], [], []⟩, [], [], [], [], [], [], []⟩

/-- The worker's `loadCore` on already-fetched buffers: reads the header,
carves the typed-array views out of the buffers (the only operations that
can fail, raising `RangeError` exactly when a declared view extends past
its buffer or the docstore index length is not a multiple of 4), stores
everything and builds the prefix map.  `keyMap` stands for the parsed
`idmap.json`.  No content validation is performed.
(`ensureExtendedLoaded` is structurally identical for the extended tier.) -/
def loadCore (meta : Meta) (dictBuf ptrsBuf postBuf docIdxBuf docBlobBuf : List Nat)
    (keyMap : List (String × Nat)) : Except String EngineState :=
  let numTerms := u32At dictBuf 0
  let termBytesLen := u32At dictBuf 4
  let blobStart := 8 + 4 * (numTerms + 1)
  -- One bounds check per construction the source performs, in source
  -- order; every violation raises the same `RangeError`:
  -- getUint32(0), getUint32(4), the offsets view, the blob view, the six
  -- ptr views, and the whole-buffer docstore-index view (which requires
  -- 4-alignment of the byte length).
  if 0 + 4 ≤ dictBuf.length ∧ 4 + 4 ≤ dictBuf.length ∧
      8 + 4 * (numTerms + 1) ≤ dictBuf.length ∧
      blobStart + termBytesLen ≤ dictBuf.length ∧
      0 + 4 * numTerms ≤ ptrsBuf.length ∧
      4 * numTerms + 4 * numTerms ≤ ptrsBuf.length ∧
      8 * numTerms + 4 * numTerms ≤ ptrsBuf.length ∧
      12 * numTerms + 4 * numTerms ≤ ptrsBuf.length ∧
      16 * numTerms + 4 * numTerms ≤ ptrsBuf.length ∧
      20 * numTerms + 4 * numTerms ≤ ptrsBuf.length ∧
      docIdxBuf.length % 4 = 0 then
    let termOffsets := (List.range (numTerms + 1)).map (fun i => u32At dictBuf (8 + 4 * i))
    let termBlob := sliceBytes dictBuf blobStart (blobStart + termBytesLen)
    let rd := fun (off : Nat) => (List.range numTerms).map (fun i => u32At ptrsBuf (off + 4 * i))
    .ok
      { numDocs := meta.numDocs
        core :=
          { dict := ⟨termBlob, termOffsets, buildPfxMap termBlob termOffsets numTerms⟩
            ptrTitleStart := rd 0
            ptrTitleLen := rd (4 * numTerms)
            ptrAuthorsStart := rd (8 * numTerms)
            ptrAuthorsLen := rd (12 * numTerms)
            ptrKeyStart := rd (16 * numTerms)
            ptrKeyLen := rd (20 * numTerms)
            postings := postBuf }
        extLoaded := false
        ext := emptyExt
        docIndex := (List.range (docIdxBuf.length / 4)).map (fun i => u32At docIdxBuf (4 * i))
        docBlob := docBlobBuf
        keyToId := keyMap }
  else .error "RangeError"

/-! ## Specification-side definitions

These translate the spec's wording (not the code) and are compared with
the embedded code in the claim theorems. -/

/-- The builder/spec tokenization of a field's text: normalized
non-stopword tokens in order (a token's position is its index in this
list, so "strictly consecutive positions" is adjacency in this list). -/
def tokList (s : String) : List String := splitFilter (normalize s).data

/-- `pat` is a leading block of `big`. -/
def startsWithList : List String → List String → Bool
  | _, [] => true
  | [], _ :: _ => false
  | a :: as, b :: bs => a == b && startsWithList as bs

/-- The phrase tokens `ws` occur as a contiguous block of `ts`. -/
def hasConsec (ws : List String) : List String → Bool
  | [] => startsWithList [] ws
  | t :: rest => startsWithList (t :: rest) ws || hasConsec ws rest

/-- Spec: the phrase occurs at strictly consecutive positions in the
normalized field text. -/
def phraseInField (field : String) (ws : List String) : Bool :=
  hasConsec ws (tokList field)

/-- Spec (claim C2): the fields in which a given token matched a given
doc — the fields whose posting list for one of the token's resolved
termIds contains the doc. -/
def matchedFieldsForDoc (c : CoreTier) (e : ExtTier) (extOn : Bool)
    (coreIds extIds : List Nat) (docId : Nat) : List Fld :=
  let fps := (coreIds.map (postingsForCoreTerm c)).flatten ++
    (if extOn then (extIds.map (postingsForExtTerm e)).flatten else [])
  (fps.filter (fun fp => fp.docs.contains docId)).foldl (fun a fp => addSrc a fp.src) []

/-- The weight of the highest-weighted field in a tag list (0 if empty). -/
def specMaxW (srcs : List Fld) : Int := (srcs.map fieldW).foldr max 0

/-- Spec (claim C2): per-doc score — the sum over bag tokens of the
highest field weight among the fields in which that token matched that
doc. -/
def specC2Score (st : EngineState) (tq : ParsedQuery) (extOn : Bool)
    (docId : Nat) : Int :=
  let n := tq.tokens.length
  (tq.tokens.enum.map (fun p =>
    let pfx := tq.lastIsPfx && decide (p.1 + 1 = n)
    specMaxW (matchedFieldsForDoc st.core st.ext extOn
      (resolveTermRanges st.core.dict p.2 pfx)
      (if extOn then resolveTermRanges st.ext.dict p.2 pfx else [])
      docId))).sum

/-- Byte-wise string comparison (claim C3's tie-break order). -/
def byteCmp (a b : String) : Ordering := listCmpN (bytesOfAscii a) (bytesOfAscii b)

/-- Spec (claim C3): the claimed result order — score descending, year
descending (missing year 0), then title and key ascending byte-wise. -/
def claimC3Cmp (st : EngineState) (parse : String → Option Entry)
    (a b : Nat × Int) : Ordering :=
  let ea := getEntryById st parse (a.1 : Int)
  let eb := getEntryById st parse (b.1 : Int)
  (compare b.2 a.2).then
    ((compare ((eb.bind (·.year)).getD 0) ((ea.bind (·.year)).getD 0)).then
      ((byteCmp ((ea.map (·.title)).getD "") ((eb.map (·.title)).getD "")).then
        (byteCmp ((ea.map (·.key)).getD "") ((eb.map (·.key)).getD ""))))

/-- Amended claim C3: the engine's actual result order — score descending,
year descending (missing year 0), then title and key ascending under the
locale collation (`localeCompare`), as a lexicographic chain. -/
def amendedC3Cmp (st : EngineState) (parse : String → Option Entry)
    (a b : Nat × Int) : Ordering :=
  let ea := getEntryById st parse (a.1 : Int)
  let eb := getEntryById st parse (b.1 : Int)
  (compare b.2 a.2).then
    ((compare ((eb.bind (·.year)).getD 0) ((ea.bind (·.year)).getD 0)).then
      ((jsLocaleCmp ((ea.map (·.title)).getD "") ((eb.map (·.title)).getD "")).then
        (jsLocaleCmp ((ea.map (·.key)).getD "") ((eb.map (·.key)).getD ""))))

/-! ## Concrete artifact states used by the claim theorems -/

/-- Parse function for a two-doc docstore whose slices read `J0`/`J1`
(standing for the records' JSON texts). -/
def parse2 (e0 e1 : Entry) : String → Option Entry :=
  fun s => if s = "J0" then some e0 else if s = "J1" then some e1 else none

/-- Offsets array of a packed term list. -/
def offsetsOf (ts : List String) : List Nat :=
  (ts.map String.length).scanl (· + ·) 0

/-- Packed blob of a term list. -/
def blobOf (ts : List String) : List Nat := (ts.map bytesOfAscii).flatten

/-- Core-tier artifacts for the phrase-filtering scenario (claim C1):
one document, title `x ab cd`, key `k0`; dictionary
`[ab, cd, k0, x]` with postings laid out sequentially, encoded by the
builder's encoder. -/
def exC1Core : CoreTier :=
  { dict :=
      { termBlob := blobOf ["ab", "cd", "k0", "x"]
        termOffsets := offsetsOf ["ab", "cd", "k0", "x"]
        pfxMap := buildPfxMap (blobOf ["ab", "cd", "k0", "x"])
          (offsetsOf ["ab", "cd", "k0", "x"]) 4 }
    ptrTitleStart := [0, 3, 0, 8]
    ptrTitleLen := [3, 3, 0, 3]
    ptrAuthorsStart := [0, 0, 0, 0]
    ptrAuthorsLen := [0, 0, 0, 0]
    ptrKeyStart := [0, 0, 6, 0]
    ptrKeyLen := [0, 0, 2, 0]
    postings := encodePositions 0 [(0, [1])] ++ encodePositions 0 [(0, [2])] ++
      encodeTF 0 [(0, 1)] ++ encodePositions 0 [(0, [0])] }

def exC1Entry : Entry := ⟨0, "k0", "x ab cd", "", none, none, none, none⟩

def exC1State : EngineState :=
  { numDocs := 1
    core := exC1Core
    extLoaded := false
    ext := emptyExt
    docIndex := [0, 2]
    docBlob := bytesOfAscii "J0"
    keyToId := [("k0", 0)] }

def exC1Parse : String → Option Entry :=
  fun s => if s = "J0" then some exC1Entry else none

/-- Artifacts for the scoring scenario (claim C2): token `x` occurs in
doc 0's title and only in doc 1's key. -/
def exC2Core : CoreTier :=
  { dict :=
      { termBlob := blobOf ["k0", "x"]
        termOffsets := offsetsOf ["k0", "x"]
        pfxMap := buildPfxMap (blobOf ["k0", "x"]) (offsetsOf ["k0", "x"]) 2 }
    ptrTitleStart := [0, 2]
    ptrTitleLen := [0, 3]
    ptrAuthorsStart := [0, 0]
    ptrAuthorsLen := [0, 0]
    ptrKeyStart := [0, 5]
    ptrKeyLen := [2, 2]
    postings := encodeTF 0 [(0, 1)] ++ encodePositions 0 [(0, [0])] ++
      encodeTF 0 [(1, 1)] }

def exC2E0 : Entry := ⟨0, "k0", "x", "", none, none, none, none⟩

def exC2E1 : Entry := ⟨1, "x", "", "", none, none, none, none⟩

def exC2State : EngineState :=
  { numDocs := 2
    core := exC2Core
    extLoaded := false
    ext := emptyExt
    docIndex := [0, 2, 4]
    docBlob := bytesOfAscii "J0J1"
    keyToId := [("k0", 0), ("x", 1)] }

/-- Artifacts for the ordering scenario (claim C3): both docs match `x`
in the title with equal scores and missing years; titles `a x` and
`B x`. -/
def exC3Core : CoreTier :=
  { dict :=
      { termBlob := blobOf ["b", "k0", "k1", "x"]
        termOffsets := offsetsOf ["b", "k0", "k1", "x"]
        pfxMap := buildPfxMap (blobOf ["b", "k0", "k1", "x"])
          (offsetsOf ["b", "k0", "k1", "x"]) 4 }
    ptrTitleStart := [0, 0, 0, 7]
    ptrTitleLen := [3, 0, 0, 6]
    ptrAuthorsStart := [0, 0, 0, 0]
    ptrAuthorsLen := [0, 0, 0, 0]
    ptrKeyStart := [0, 3, 5, 0]
    ptrKeyLen := [0, 2, 2, 0]
    postings := encodePositions 0 [(1, [0])] ++ encodeTF 0 [(0, 1)] ++
      encodeTF 0 [(1, 1)] ++ encodePositions 0 [(0, [1]), (1, [1])] }

def exC3E0 : Entry := ⟨0, "k0", "a x", "", none, none, none, none⟩

def exC3E1 : Entry := ⟨1, "k1", "B x", "", none, none, none, none⟩

def exC3State : EngineState :=
  { numDocs := 2
    core := exC3Core
    extLoaded := false
    ext := emptyExt
    docIndex := [0, 2, 4]
    docBlob := bytesOfAscii "J0J1"
    keyToId := [("k0", 0), ("k1", 1)] }

/-- Artifacts for the terminal-token expansion scenario (claim C4):
dictionary `[apple, bella1, bellare, k0, k1]`; doc 0's title is
`bellare`, doc 1's title is `apple bella1`; the query `bella` matches
doc 0 only through expansion (no exact dictionary hit). -/
def exC4Terms : List String := ["apple", "bella1", "bellare", "k0", "k1"]

def exC4Core : CoreTier :=
  { dict :=
      { termBlob := blobOf exC4Terms
        termOffsets := offsetsOf exC4Terms
        pfxMap := buildPfxMap (blobOf exC4Terms) (offsetsOf exC4Terms) 5 }
    ptrTitleStart := [0, 3, 6, 0, 0]
    ptrTitleLen := [3, 3, 3, 0, 0]
    ptrAuthorsStart := [0, 0, 0, 0, 0]
    ptrAuthorsLen := [0, 0, 0, 0, 0]
    ptrKeyStart := [0, 0, 0, 9, 11]
    ptrKeyLen := [0, 0, 0, 2, 2]
    postings := encodePositions 0 [(1, [0])] ++ encodePositions 0 [(1, [1])] ++
      encodePositions 0 [(0, [0])] ++ encodeTF 0 [(0, 1)] ++ encodeTF 0 [(1, 1)] }

def exC4E0 : Entry := ⟨0, "k0", "bellare", "", none, none, none, none⟩

def exC4E1 : Entry := ⟨1, "k1", "apple bella1", "", none, none, none, none⟩

def exC4State : EngineState :=
  { numDocs := 2
    core := exC4Core
    extLoaded := false
    ext := emptyExt
    docIndex := [0, 2, 4]
    docBlob := bytesOfAscii "J0J1"
    keyToId := [("k0", 0), ("k1", 1)] }

/-- A three-digit zero-padded decimal. -/
def threeDigits (i : Nat) : String :=
  ⟨[Char.ofNat (48 + i / 100), Char.ofNat (48 + i / 10 % 10), Char.ofNat (48 + i % 10)]⟩

/-- 129 dictionary terms `bell000 … bell128`, all sharing the 4-character
prefix-map key `bell` (claim C5). -/
def exC5Terms : List String := (List.range 129).map (fun i => "bell" ++ threeDigits i)

def exC5Dict : DictView :=
  { termBlob := blobOf exC5Terms
    termOffsets := offsetsOf exC5Terms
    pfxMap := buildPfxMap (blobOf exC5Terms) (offsetsOf exC5Terms) 129 }

/-- Spec (claim C9): offsets must be nondecreasing. -/
def offsNondecreasing (offs : List Nat) : Bool :=
  (offs.zip offs.tail).all (fun p => p.1 ≤ p.2)

/-- Spec (claim C9): every `(start, len)` range lies inside the postings
blob. -/
def ptrRangesOk (starts lens : List Nat) (postLen : Nat) : Bool :=
  (starts.zip lens).all (fun p => p.1 + p.2 ≤ postLen)

/-- Malformed `dict.bin` for claim C9: header declares 1 term of 1 byte,
but the offsets array is `[5, 2]` — decreasing and out of bounds of the
1-byte blob. -/
def exC9DictBuf : List Nat :=
  [1, 0, 0, 0, 1, 0, 0, 0, 5, 0, 0, 0, 2, 0, 0, 0, 97]

/-- Malformed `ptrs.bin` for claim C9: the title pointer for term 0 is
`(start, len) = (100, 50)` although `postings.bin` is empty. -/
def exC9PtrsBuf : List Nat :=
  [100, 0, 0, 0, 50, 0, 0, 0, 0, 0, 0, 0, 0, 0, 0, 0, 0, 0, 0, 0, 0, 0, 0, 0]

/-! ## Claim theorems -/

/-- C1.  The claim states that phrase filtering reduces the doc set before
scoring and that every returned record contains each phrase's tokens at
consecutive positions in the normalized title or authors field.  The
worker performs no phrase filtering at all: on a one-document index whose
title is `x ab cd`, the query `x "cd ab"` parses into bag token `x` and
phrase `cd ab`, and `handleSearch` returns the document even though
neither its title nor its authors contain `cd ab` consecutively. -/
theorem c1_no_phrase_filtering :
    (handleSearch exC1State exC1Parse "x \"cd ab\"" {}).toOption = some [exC1Entry] ∧
    (tokenizeQuery "x \"cd ab\"").phrases = [["cd", "ab"]] ∧
    phraseInField exC1Entry.title ["cd", "ab"] = false ∧
    phraseInField exC1Entry.authors_str ["cd", "ab"] = false := by
  refine ⟨?_, by decide, by decide, by decide⟩
  decide

/-- C2 counterexample.  The claim attributes to each doc, per bag token,
the weight of the highest-weighted field *in which that token matched that
doc*.  On an index where token `x` matches doc 0 in the title and doc 1
only in the key, the worker scores doc 1 with the title weight 3 (its
`srcs` set is collected across all docs of the token), while the claimed
per-doc rule gives 4/5. -/
theorem c2_score_not_per_doc :
    scoredResults (tokenSets exC2State (tokenizeQuery "x")
        (extOnFor exC2State {} (tokenizeQuery "x"))) = [(0, 30), (1, 30)] ∧
    specC2Score exC2State (tokenizeQuery "x")
        (extOnFor exC2State {} (tokenizeQuery "x")) 1 = 8 ∧
    matchedFieldsForDoc exC2State.core exC2State.ext false
        (resolveTermRanges exC2State.core.dict "x" true) [] 1 = [Fld.key] ∧
    tenths 30 = 3 ∧ tenths 8 = 4 / 5 ∧ (30 : Int) ≠ 8 := by
  refine ⟨by decide, by decide, by decide, by norm_num [tenths], by norm_num [tenths], by decide⟩

/-- C3 counterexample.  The claim requires score ties to be broken by
byte-wise title comparison.  The worker uses `localeCompare`: with two
docs tied on score and year and titles `a x` and `B x`, the search
returns doc 0 (`a x`) first, while byte-wise order (`B` = 0x42 < `a` =
0x61) demands doc 1 first — the claimed comparator says the returned
pair is out of order. -/
theorem c3_tiebreak_not_bytewise :
    searchRanked exC3State (parse2 exC3E0 exC3E1) "x" {} = [(0, 30), (1, 30)] ∧
    (handleSearch exC3State (parse2 exC3E0 exC3E1) "x" {}).toOption = some [exC3E0, exC3E1] ∧
    claimC3Cmp exC3State (parse2 exC3E0 exC3E1) (0, 30) (1, 30) = .gt := by
  refine ⟨by decide, by decide, by decide⟩

/-- C4.  The claim (and the repository's own design notes: "Prefix
penalty: 0.8 multiplier for prefix-only hits on last token") requires a
×0.8 multiplier on the contribution of a terminal token matched only by
expansion.  On an index where the query `bella` resolves with no exact
dictionary hit (only the expanded term `bellare`, termId 2), the worker
scores the matching doc with the full title weight 3, not 3 × 0.8 =
12/5: no multiplier exists anywhere in the scoring loop. -/
theorem c4_no_expansion_penalty :
    searchRanked exC4State (parse2 exC4E0 exC4E1) "bella" {} = [(0, 30)] ∧
    resolveTermRanges exC4Core.dict "bella" false = [] ∧
    resolveTermRanges exC4Core.dict "bella" true = [2] ∧
    tenths 30 = 3 ∧ (3 : ℚ) ≠ (4 / 5) * 3 := by
  refine ⟨by decide, by decide, by decide, by norm_num [tenths], by norm_num⟩

/-- C5.  The claim states that when the range
`[lower_bound(token), lower_bound(token + MAX_SUFFIX))` holds more than
128 terms, the resolver returns the first 128 termIds in dictionary
order.  On a 129-term dictionary `bell000 … bell128` with token `bell`
(no exact hit), the range is `[0, 129)` but the resolver returns termIds
`1 … 127` — 127 ids, missing the range's first term: the loop guard
`i !== exactId` (meant to avoid a duplicate of the exact match) also
fires when nothing was pushed, because `exactId` is the lower bound
whether or not it is an exact match. -/
theorem c5_expansion_skips_first_term :
    resolveTermRanges exC5Dict "bell" true = List.range' 1 127 ∧
    lowerBoundTerm exC5Dict.termBlob exC5Dict.termOffsets "bell" = 0 ∧
    lowerBoundTerm exC5Dict.termBlob exC5Dict.termOffsets ("bell".push maxChar) = 129 ∧
    (resolveTermRanges exC5Dict "bell" true).length = 127 ∧
    resolveTermRanges exC5Dict "bell" true ≠ List.range' 0 128 := by
  refine ⟨by decide, by decide, by decide, by decide, by decide⟩

/-- C6 counterexample.  The claim says `lastIsPrefix` is true iff the
string does not end with a quote and a bag token exists.  The worker
tests the *trimmed* normalized string: on `ab "cd" ` (trailing space) a
bag token exists and the raw string ends with a space, not a quote, yet
the flag is false because the trimmed text ends with the quote. -/
theorem c6_trailing_space_counterexample :
    normalize "ab \"cd\" " = "ab \"cd\" " ∧
    (tokenizeQuery "ab \"cd\" ").tokens = ["ab"] ∧
    endsWithQuote "ab \"cd\" " = false ∧
    (tokenizeQuery "ab \"cd\" ").lastIsPfx = false := by
  refine ⟨by decide, by decide, by decide, by decide⟩

/-- C8 counterexample.  The claim says the decoder fails fatally on a
malformed varint and consumes exactly `len` bytes.  On the 2-byte blob
`[0x81, 0x01]` with range `(start, len) = (0, 1)`, the declared range
ends inside a varint: the decoder reads the continuation byte *outside*
the range, consumes 2 bytes instead of 1, raises no error, and returns
the decoded doc `[129]`. -/
theorem c8_decoder_reads_past_range :
    readPostings [129, 1] 0 1 false = ⟨[129], [], 2⟩ ∧ (2 : Nat) ≠ 0 + 1 := by
  refine ⟨by decide, by decide⟩

/-- C9 counterexample.  The claim says the loader validates that
`termOffsets` is nondecreasing and bounded by `termBytesLen` and that all
pointer ranges lie inside `postings.bin`, refusing the artifacts
otherwise.  `loadCore` accepts a `dict.bin` whose offsets array is
`[5, 2]` (decreasing, and 5 > termBytesLen = 1) together with a
`ptrs.bin` declaring the title range `[100, 150)` over an *empty*
postings blob, and becomes ready. -/
theorem c9_loader_accepts_malformed :
    (loadCore ⟨"v1", 1⟩ exC9DictBuf exC9PtrsBuf [] [0, 0, 0, 0] [] []).isOk = true ∧
    (loadCore ⟨"v1", 1⟩ exC9DictBuf exC9PtrsBuf [] [0, 0, 0, 0] [] []).toOption.map
        (fun st => (st.core.dict.termOffsets, st.core.ptrTitleStart,
          st.core.ptrTitleLen, st.core.postings.length)) =
      some ([5, 2], [100], [50], 0) ∧
    offsNondecreasing [5, 2] = false ∧
    ptrRangesOk [100] [50] 0 = false := by
  refine ⟨by decide, by decide, by decide, by decide⟩

/-- C10.  `getEntry` never errors after initialization: an id outside
`[0, numDocs)` yields `null`; a key absent from the key→id map is mapped
to `-1` and yields `null`; and an in-range id whose docstore slice fails
to parse also yields `null` (the `JSON.parse` is wrapped in
`try/catch`). -/
theorem c10_getEntry_total (st : EngineState) (parse : String → Option Entry) :
    (∀ id : Int, (id < 0 ∨ (st.numDocs : Int) ≤ id) → getEntryById st parse id = none) ∧
    (∀ key : String, st.keyToId.find? (fun e => e.1 == key) = none →
      handleGet st parse (.inr key) = none) ∧
    (∀ id : Int, 0 ≤ id → id < (st.numDocs : Int) →
      parse (trimWS (asciiDecode (sliceBytes st.docBlob
        (st.docIndex.getD id.toNat 0) (st.docIndex.getD (id.toNat + 1) 0)))) = none →
      getEntryById st parse id = none) := by
  refine ⟨?_, ?_, ?_⟩
  · intro id h
    simp only [getEntryById, if_pos h]
  · intro key h
    simp only [handleGet, h, Option.map_none', Option.elim_none, getEntryById]
    norm_num
  · intro id h0 h1 hp
    simp only [getEntryById]
    rw [if_neg]
    · exact hp
    · omega

theorem uvarintFrom_consumed_le (bs : List Nat) :
    ∀ x s, (uvarintFrom bs x s).2 ≤ bs.length := by
  induction bs with
  | nil => intro x s; simp [uvarintFrom]
  | cons b rest ih =>
    intro x s
    simp only [uvarintFrom, List.length_cons]
    split
    · simp
    · have := ih (x ||| (((b &&& 127) <<< (s % 32)) % 2 ^ 32)) (s + 7)
      omega

theorem uvarintFrom_consumed_pos (bs : List Nat) (hne : bs ≠ []) (x s : Nat) :
    1 ≤ (uvarintFrom bs x s).2 := by
  cases bs with
  | nil => exact absurd rfl hne
  | cons b rest =>
    simp only [uvarintFrom]
    split
    · simp
    · simp

theorem uvarint_ge (buf : List Nat) (p : Nat) : p ≤ (uvarint buf p).2 := by
  simp [uvarint]

theorem uvarint_le (buf : List Nat) (p : Nat) (h : p ≤ buf.length) :
    (uvarint buf p).2 ≤ buf.length := by
  simp only [uvarint]
  have := uvarintFrom_consumed_le (buf.drop p) 0 0
  simp only [List.length_drop] at this
  omega

theorem uvarint_gt (buf : List Nat) (p : Nat) (h : p < buf.length) :
    p + 1 ≤ (uvarint buf p).2 := by
  simp only [uvarint]
  have hne : buf.drop p ≠ [] := by
    intro hc
    have := congrArg List.length hc
    simp at this
    omega
  have := uvarintFrom_consumed_pos (buf.drop p) hne 0 0
  omega

theorem readDeltas_ge (buf : List Nat) :
    ∀ n p lastPos, p ≤ (readDeltas buf n p lastPos).2 := by
  intro n
  induction n with
  | zero => intro p lastPos; simp [readDeltas]
  | succ n ih =>
    intro p lastPos
    simp only [readDeltas]
    have h1 := uvarint_ge buf p
    have h2 := ih (uvarint buf p).2 (lastPos + (uvarint buf p).1)
    omega

theorem readDeltas_le (buf : List Nat) :
    ∀ n p lastPos, p ≤ buf.length → (readDeltas buf n p lastPos).2 ≤ buf.length := by
  intro n
  induction n with
  | zero => intro p lastPos h; simpa [readDeltas] using h
  | succ n ih =>
    intro p lastPos h
    simp only [readDeltas]
    exact ih _ _ (uvarint_le buf p h)

theorem rpAux_endP (buf : List Nat) (withPos : Bool) (endPos : Nat) :
    ∀ fuel p lastDoc, p ≤ buf.length → endPos ≤ buf.length → endPos ≤ p + fuel →
      endPos ≤ (rpAux buf withPos endPos fuel p lastDoc).endP ∧
      (rpAux buf withPos endPos fuel p lastDoc).endP ≤ buf.length := by
  intro fuel
  induction fuel with
  | zero =>
    intro p lastDoc hp hend hfl
    simp only [rpAux]
    omega
  | succ fuel ih =>
    intro p lastDoc hp hend hfl
    simp only [rpAux]
    by_cases hlt : p < endPos
    · rw [if_pos hlt]
      have hplen : p < buf.length := by omega
      have h1 := uvarint_gt buf p hplen
      have h1' := uvarint_le buf p (by omega)
      by_cases hwp : withPos
      · rw [if_pos hwp]
        have h2 := uvarint_ge buf (uvarint buf p).2
        have h2' := uvarint_le buf (uvarint buf p).2 h1'
        have h3 := readDeltas_ge buf (uvarint buf (uvarint buf p).2).1
          (uvarint buf (uvarint buf p).2).2 0
        have h3' := readDeltas_le buf (uvarint buf (uvarint buf p).2).1
          (uvarint buf (uvarint buf p).2).2 0 h2'
        have := ih (readDeltas buf (uvarint buf (uvarint buf p).2).1
          (uvarint buf (uvarint buf p).2).2 0).2 (lastDoc + (uvarint buf p).1)
          h3' hend (by omega)
        simpa using this
      · rw [if_neg hwp]
        have h2 := uvarint_ge buf (uvarint buf p).2
        have h2' := uvarint_le buf (uvarint buf p).2 h1'
        have := ih (uvarint buf (uvarint buf p).2).2 (lastDoc + (uvarint buf p).1)
          h2' hend (by omega)
        simpa using this
    · rw [if_neg hlt]
      simp only []
      omega

/-- C8 amended.  The decoder never fails; with a declared range inside the
buffer it always consumes at least `len` bytes before stopping (the
counterexample shows it can consume strictly more, reading outside the
declared range), and it never reads past the end of the buffer. -/
theorem c8_amended_decoder_consumption (buf : List Nat) (start len : Nat)
    (withPos : Bool) (h : start + len ≤ buf.length) :
    start + len ≤ (readPostings buf start len withPos).endP ∧
    (readPostings buf start len withPos).endP ≤ buf.length := by
  exact rpAux_endP buf withPos (start + len) len start 0 (by omega) h (by omega)

/-- Witness for the C8 amended theorem. -/
theorem c8_amended_decoder_consumption_witness :
    0 + 1 ≤ (readPostings [129, 1] 0 1 false).endP ∧
    (readPostings [129, 1] 0 1 false).endP ≤ 2 := by
  exact c8_amended_decoder_consumption [129, 1] 0 1 false (by decide)

/-- C9 amended.  Loading performs size checks only: it succeeds exactly
when the dictionary header, offsets array and blob fit inside `dict.bin`,
the six pointer arrays fit inside `ptrs.bin`, and the docstore index byte
length is a multiple of 4 — regardless of the *content* of any buffer
(monotonicity of `termOffsets`, its bound by `termBytesLen`, and the
pointer ranges against `postings.bin` are never examined, as the
counterexample shows). -/
theorem c9_amended_loader_size_checks_only (meta : Meta)
    (dictBuf ptrsBuf postBuf docIdxBuf docBlobBuf : List Nat)
    (keyMap : List (String × Nat)) :
    (loadCore meta dictBuf ptrsBuf postBuf docIdxBuf docBlobBuf keyMap).isOk = true ↔
      (8 ≤ dictBuf.length ∧
       8 + 4 * (u32At dictBuf 0 + 1) + u32At dictBuf 4 ≤ dictBuf.length ∧
       24 * u32At dictBuf 0 ≤ ptrsBuf.length ∧
       docIdxBuf.length % 4 = 0) := by
  simp only [loadCore]
  split_ifs with h
  · exact iff_of_true rfl (by omega)
  · refine iff_of_false (by simp [Except.isOk, Except.toBool]) (fun hc => h ?_)
    omega

/-- No double quote occurs in the string. -/
def quoteFree (s : String) : Bool := s.data.all (fun c => c != qChar)

theorem quoteFree_chars {s : String} (h : quoteFree s = true) :
    ∀ c ∈ s.data, c ≠ qChar := by
  intro c hc
  have := List.all_eq_true.mp h c hc
  simpa using this

theorem breakAtQuote_of_quoteFree (cs : List Char) (h : ∀ c ∈ cs, c ≠ qChar) :
    breakAtQuote cs = (cs, []) := by
  induction cs with
  | nil => rfl
  | cons c cs ih =>
    simp only [breakAtQuote]
    rw [if_neg (h c (by simp))]
    have := ih (fun x hx => h x (by simp [hx]))
    simp [this]

theorem breakAtQuote_found (nt nu : List Char) (h : ∀ c ∈ nt, c ≠ qChar) :
    breakAtQuote (nt ++ qChar :: nu) = (nt, qChar :: nu) := by
  induction nt with
  | nil => simp [breakAtQuote]
  | cons c cs ih =>
    simp only [List.cons_append, breakAtQuote]
    rw [if_neg (h c (by simp))]
    have := ih (fun x hx => h x (by simp [hx]))
    simp [this]

theorem scanAux_one_quote (fuel : Nat) (nt nu : List Char)
    (ht : ∀ c ∈ nt, c ≠ qChar) (hu : ∀ c ∈ nu, c ≠ qChar) :
    scanAux (fuel + 1) (nt ++ qChar :: nu) = ([], nt ++ qChar :: nu) := by
  simp only [scanAux, breakAtQuote_found nt nu ht, breakAtQuote_of_quoteFree nu hu]

theorem splitRunsAux_sep (sep : Char) (hsep : isAlnumLower sep = false) (ys : List Char) :
    ∀ xs acc, splitRunsAux (xs ++ sep :: ys) acc =
      splitRunsAux xs acc ++ splitRunsAux ys [] := by
  intro xs
  induction xs with
  | nil =>
    intro acc
    by_cases h : acc.isEmpty <;>
      simp [splitRunsAux, h, hsep]
  | cons c cs ih =>
    intro acc
    by_cases hc : isAlnumLower c
    · simp [splitRunsAux, hc, ih]
    · by_cases h : acc.isEmpty <;>
        simp [splitRunsAux, hc, h, ih]

theorem splitFilter_sep (sep : Char) (hsep : isAlnumLower sep = false)
    (xs ys : List Char) :
    splitFilter (xs ++ sep :: ys) = splitFilter xs ++ splitFilter ys := by
  simp [splitFilter, splitRuns, splitRunsAux_sep sep hsep ys xs, List.filter_append]

/-- C6 amended.  `lastIsPrefix` is true iff at least one bag token exists
and the *trimmed* normalized string does not end with a quote; and a
query with a single unbalanced trailing open quote (quote-free `t` and
`u` around it, after normalization) produces no phrase, with the content
around and after the quote tokenized into bag tokens. -/
theorem c6_amended_lastIsPfx :
    (∀ q : String, (tokenizeQuery q).lastIsPfx =
      (!(tokenizeQuery q).tokens.isEmpty && !endsWithQuote (trimWS (normalize q)))) ∧
    (∀ t u : String, quoteFree (normalize t) = true → quoteFree (normalize u) = true →
      (tokenizeQuery (t ++ "\"" ++ u)).phrases = [] ∧
      (tokenizeQuery (t ++ "\"" ++ u)).tokens = tokList t ++ tokList u) := by
  constructor
  · intro q
    rfl
  · intro t u ht hu
    have hq : ("\"" : String).data = [qChar] := by decide
    have hnorm : (normalize (t ++ "\"" ++ u)).data =
        (normalize t).data ++ qChar :: (normalize u).data := by
      show ((t ++ "\"" ++ u).data.map Char.toLower) = _
      simp only [String.data_append, List.map_append, hq]
      have : ([qChar].map Char.toLower) = [qChar] := by decide
      simp only [normalize]
      simp [this]
      all_goals decide
    have hlen : (normalize (t ++ "\"" ++ u)).data.length =
        ((normalize t).data.length + (normalize u).data.length) + 1 := by
      rw [hnorm]
      simp
      omega
    have hscan : scanPhrases (normalize (t ++ "\"" ++ u)).data =
        ([], (normalize t).data ++ qChar :: (normalize u).data) := by
      rw [scanPhrases, hlen, hnorm]
      exact scanAux_one_quote _ _ _ (quoteFree_chars ht) (quoteFree_chars hu)
    have hqn : isAlnumLower qChar = false := by decide
    constructor
    · simp [tokenizeQuery, hscan]
    · simp [tokenizeQuery, hscan, splitFilter_sep qChar hqn, tokList]

/-- Witness for the C6 amended theorem. -/
theorem c6_amended_lastIsPfx_witness :
    ((tokenizeQuery "ab \"cd\" ").lastIsPfx =
      (!(tokenizeQuery "ab \"cd\" ").tokens.isEmpty &&
        !endsWithQuote (trimWS (normalize "ab \"cd\" ")))) ∧
    ((tokenizeQuery ("xy xz" ++ "\"" ++ " k9")).phrases = [] ∧
      (tokenizeQuery ("xy xz" ++ "\"" ++ " k9")).tokens = tokList "xy xz" ++ tokList " k9") :=
  ⟨c6_amended_lastIsPfx.1 "ab \"cd\" ",
    c6_amended_lastIsPfx.2 "xy xz" " k9" (by decide) (by decide)⟩

theorem insertLe_perm {α : Type} (le : α → α → Bool) (a : α) (l : List α) :
    List.Perm (insertLe le a l) (a :: l) := by
  induction l with
  | nil => exact List.Perm.refl _
  | cons b bs ih =>
    simp only [insertLe]
    split
    · exact List.Perm.refl _
    · exact ((ih.cons b).trans (List.Perm.swap a b bs))

theorem stableSortBy_perm {α : Type} (le : α → α → Bool) (l : List α) :
    List.Perm (stableSortBy le l) l := by
  induction l with
  | nil => exact List.Perm.refl _
  | cons x xs ih =>
    exact (insertLe_perm le x (stableSortBy le xs)).trans (ih.cons x)

theorem mem_insertLe {α : Type} {le : α → α → Bool} {a x : α} {l : List α}
    (h : x ∈ insertLe le a l) : x = a ∨ x ∈ l := by
  have := (insertLe_perm le a l).mem_iff.mp h
  simpa using this

theorem insertLe_sorted {α : Type} (le : α → α → Bool)
    (htot : ∀ a b, le a b = true ∨ le b a = true)
    (htr : ∀ a b c, le a b = true → le b c = true → le a c = true)
    (a : α) (l : List α) (h : l.Pairwise (fun x y => le x y = true)) :
    (insertLe le a l).Pairwise (fun x y => le x y = true) := by
  induction l with
  | nil => simp [insertLe]
  | cons b bs ih =>
    simp only [insertLe]
    rcases List.pairwise_cons.mp h with ⟨hb, hbs⟩
    by_cases hab : le a b = true
    · rw [if_pos hab]
      refine List.pairwise_cons.mpr ⟨?_, h⟩
      intro y hy
      rcases List.mem_cons.mp hy with rfl | hy2
      · exact hab
      · exact htr a b y hab (hb _ hy2)
    · rw [if_neg hab]
      refine List.pairwise_cons.mpr ⟨?_, ih hbs⟩
      intro y hy
      rcases mem_insertLe hy with heq | hy2
      · subst heq
        rcases htot y b with h1 | h1
        · exact absurd h1 hab
        · exact h1
      · exact hb _ hy2

theorem stableSortBy_sorted {α : Type} (le : α → α → Bool)
    (htot : ∀ a b, le a b = true ∨ le b a = true)
    (htr : ∀ a b c, le a b = true → le b c = true → le a c = true)
    (l : List α) :
    (stableSortBy le l).Pairwise (fun x y => le x y = true) := by
  induction l with
  | nil => simp [stableSortBy]
  | cons x xs ih => exact insertLe_sorted le htot htr x (stableSortBy le xs) ih

theorem mem_isAux {x : Nat} :
    ∀ fuel a b, x ∈ isAux fuel a b → x ∈ a ∧ x ∈ b := by
  intro fuel
  induction fuel with
  | zero => intro a b h; simp [isAux] at h
  | succ fuel ih =>
    intro a b h
    match a, b with
    | [], _ => simp [isAux] at h
    | _ :: _, [] => simp [isAux] at h
    | a0 :: as, b0 :: bs =>
      simp only [isAux] at h
      by_cases he : a0 = b0
      · rw [if_pos he] at h
        rcases List.mem_cons.mp h with rfl | h
        · exact ⟨List.mem_cons_self _ _, he ▸ List.mem_cons_self _ _⟩
        · have := ih as bs h
          exact ⟨List.mem_cons_of_mem _ this.1, List.mem_cons_of_mem _ this.2⟩
      · rw [if_neg he] at h
        by_cases hlt : a0 < b0
        · rw [if_pos hlt] at h
          have := ih as (b0 :: bs) h
          exact ⟨List.mem_cons_of_mem _ this.1, this.2⟩
        · rw [if_neg hlt] at h
          have := ih (a0 :: as) bs h
          exact ⟨this.1, List.mem_cons_of_mem _ this.2⟩

theorem mem_intersectSorted {x : Nat} {a b : List Nat}
    (h : x ∈ intersectSorted a b) : x ∈ a ∧ x ∈ b :=
  mem_isAux _ a b h

theorem mem_foldl_intersect {x : Nat} :
    ∀ (rest : List (List Nat)) (init : List Nat),
      x ∈ rest.foldl intersectSorted init → x ∈ init ∧ ∀ l ∈ rest, x ∈ l := by
  intro rest
  induction rest with
  | nil => intro init h; simpa using h
  | cons r rs ih =>
    intro init h
    have := ih (intersectSorted init r) h
    have h2 := mem_intersectSorted this.1
    refine ⟨h2.1, ?_⟩
    intro l hl
    rcases List.mem_cons.mp hl with rfl | hl
    · exact h2.2
    · exact this.2 l hl

theorem mem_intersectAll {x : Nat} {sets : List (List Nat)}
    (h : x ∈ intersectAll sets) : ∀ l ∈ sets, x ∈ l := by
  match sets with
  | [] => simp [intersectAll] at h
  | s :: rest =>
    intro l hl
    have := mem_foldl_intersect rest s h
    rcases List.mem_cons.mp hl with rfl | hl
    · exact this.1
    · exact this.2 l hl

theorem sorted_getD_lt {arr : List Nat} (hsort : arr.Pairwise (· < ·))
    {i j : Nat} (hij : i < j) (hj : j < arr.length) :
    arr.getD i 0 < arr.getD j 0 := by
  have hi : i < arr.length := lt_trans hij hj
  rw [List.getD_eq_getElem arr 0 hi, List.getD_eq_getElem arr 0 hj]
  exact List.pairwise_iff_getElem.mp hsort i j hi hj hij

theorem bsAux_found (arr : List Nat) (x : Int) (hsort : arr.Pairwise (· < ·)) :
    ∀ (fuel : Nat) (lo hi : Int), 0 ≤ lo → hi < (arr.length : Int) →
      (hi : Int) - lo < (fuel : Int) →
      (∃ i : Nat, lo ≤ (i : Int) ∧ (i : Int) ≤ hi ∧ ((arr.getD i 0 : Nat) : Int) = x) →
      0 ≤ bsAux arr x fuel lo hi := by
  intro fuel
  induction fuel with
  | zero =>
    intro lo hi _ _ hfuel ⟨i, h1, h2, _⟩
    exfalso
    omega
  | succ fuel ih =>
    intro lo hi hlo hhi hfuel ⟨i, hi1, hi2, hix⟩
    have hlh : lo ≤ hi := le_trans hi1 hi2
    simp only [bsAux]
    rw [if_pos hlh]
    set mid : Int := (lo + hi) / 2 with hmid
    have hmid1 : lo ≤ mid := by omega
    have hmid2 : mid ≤ hi := by omega
    have hmidn : (mid.toNat : Int) = mid := Int.toNat_of_nonneg (le_trans hlo hmid1)
    by_cases he : ((arr.getD mid.toNat 0 : Nat) : Int) = x
    · rw [if_pos he]
      omega
    · rw [if_neg he]
      by_cases hlt : ((arr.getD mid.toNat 0 : Nat) : Int) < x
      · rw [if_pos hlt]
        refine ih (mid + 1) hi (by omega) hhi (by omega) ⟨i, ?_, hi2, hix⟩
        -- the witness lies strictly right of mid
        by_contra hcon
        push_neg at hcon
        have himid : (i : Int) ≤ mid := by omega
        have : arr.getD i 0 ≤ arr.getD mid.toNat 0 := by
          rcases Nat.lt_or_ge i mid.toNat with hc | hc
          · exact le_of_lt (sorted_getD_lt hsort hc (by omega))
          · have : i = mid.toNat := by omega
            rw [this]
        omega
      · rw [if_neg hlt]
        refine ih lo (mid - 1) hlo (by omega) (by omega) ⟨i, hi1, ?_, hix⟩
        by_contra hcon
        push_neg at hcon
        have himid : mid ≤ (i : Int) := by omega
        have : arr.getD mid.toNat 0 ≤ arr.getD i 0 := by
          rcases Nat.lt_or_ge mid.toNat i with hc | hc
          · exact le_of_lt (sorted_getD_lt hsort hc (by omega))
          · have : mid.toNat = i := by omega
            rw [this]
        omega

theorem binarySearch_found {arr : List Nat} (hsort : arr.Pairwise (· < ·))
    {x : Nat} (hx : x ∈ arr) : 0 ≤ binarySearch arr (x : Int) := by
  obtain ⟨i, hi, hix⟩ := List.mem_iff_getElem.mp hx
  refine bsAux_found arr (x : Int) hsort (arr.length + 1) 0 ((arr.length : Int) - 1)
    le_rfl (by omega) (by omega) ⟨i, by omega, by omega, ?_⟩
  rw [List.getD_eq_getElem arr 0 hi, hix]

theorem fieldW_le_30 (f : Fld) : fieldW f ≤ 30 := by
  cases f <;> simp [fieldW]

theorem le_specMaxW {f : Fld} {srcs : List Fld} (h : f ∈ srcs) :
    fieldW f ≤ specMaxW srcs := by
  induction srcs with
  | nil => simp at h
  | cons s rest ih =>
    simp only [specMaxW, List.map_cons, List.foldr_cons]
    rcases List.mem_cons.mp h with rfl | h
    · exact le_max_left _ _
    · exact le_trans (ih h) (le_max_right _ _)

theorem specMaxW_le {srcs : List Fld} {c : Int} (hc : 0 ≤ c)
    (h : ∀ f ∈ srcs, fieldW f ≤ c) : specMaxW srcs ≤ c := by
  induction srcs with
  | nil => simpa [specMaxW] using hc
  | cons s rest ih =>
    simp only [specMaxW, List.map_cons, List.foldr_cons]
    refine max_le (h s (List.mem_cons_self _ _)) ?_
    exact ih (fun f hf => h f (List.mem_cons_of_mem _ hf))

theorem chainW_eq_specMaxW (srcs : List Fld) : chainW srcs = specMaxW srcs := by
  have hc : ∀ f : Fld, srcs.contains f = true ↔ f ∈ srcs := fun f => List.elem_iff
  simp only [chainW]
  by_cases h1 : srcs.contains Fld.title
  · rw [if_pos h1]
    refine (le_antisymm (specMaxW_le (by norm_num [fieldW]) ?_) (le_specMaxW ((hc _).mp h1))).symm
    intro f _
    exact fieldW_le_30 f
  · rw [if_neg h1]
    by_cases h2 : srcs.contains Fld.authors
    · rw [if_pos h2]
      refine (le_antisymm (specMaxW_le (by norm_num [fieldW]) ?_) (le_specMaxW ((hc _).mp h2))).symm
      intro f hf
      cases f <;> first
        | (exact absurd ((hc _).mpr hf) h1)
        | norm_num [fieldW]
    · rw [if_neg h2]
      by_cases h3 : srcs.contains Fld.venue
      · rw [if_pos h3]
        refine (le_antisymm (specMaxW_le (by norm_num [fieldW]) ?_) (le_specMaxW ((hc _).mp h3))).symm
        intro f hf
        cases f <;> first
          | (exact absurd ((hc _).mpr hf) h1)
          | (exact absurd ((hc _).mpr hf) h2)
          | norm_num [fieldW]
      · rw [if_neg h3]
        by_cases h4 : srcs.contains Fld.year
        · rw [if_pos h4]
          refine (le_antisymm (specMaxW_le (by norm_num [fieldW]) ?_) (le_specMaxW ((hc _).mp h4))).symm
          intro f hf
          cases f <;> first
            | (exact absurd ((hc _).mpr hf) h1)
            | (exact absurd ((hc _).mpr hf) h2)
            | (exact absurd ((hc _).mpr hf) h3)
            | norm_num [fieldW]
        · rw [if_neg h4]
          by_cases h5 : srcs.contains Fld.key
          · rw [if_pos h5]
            refine (le_antisymm (specMaxW_le (by norm_num [fieldW]) ?_) (le_specMaxW ((hc _).mp h5))).symm
            intro f hf
            cases f <;> first
              | (exact absurd ((hc _).mpr hf) h1)
              | (exact absurd ((hc _).mpr hf) h2)
              | (exact absurd ((hc _).mpr hf) h3)
              | (exact absurd ((hc _).mpr hf) h4)
              | norm_num [fieldW]
          · rw [if_neg h5]
            by_cases h6 : srcs.contains Fld.doi
            · rw [if_pos h6]
              refine (le_antisymm (specMaxW_le (by norm_num [fieldW]) ?_) (le_specMaxW ((hc _).mp h6))).symm
              intro f hf
              cases f <;> first
                | (exact absurd ((hc _).mpr hf) h1)
                | (exact absurd ((hc _).mpr hf) h2)
                | (exact absurd ((hc _).mpr hf) h3)
                | (exact absurd ((hc _).mpr hf) h4)
                | (exact absurd ((hc _).mpr hf) h5)
                | norm_num [fieldW]
            · rw [if_neg h6]
              have hnil : srcs = [] := by
                cases hs : srcs with
                | nil => rfl
                | cons f rest =>
                  exfalso
                  have hf : f ∈ srcs := by rw [hs]; exact List.mem_cons_self _ _
                  cases f
                  · exact absurd ((hc _).mpr hf) h1
                  · exact absurd ((hc _).mpr hf) h2
                  · exact absurd ((hc _).mpr hf) h5
                  · exact absurd ((hc _).mpr hf) h3
                  · exact absurd ((hc _).mpr hf) h4
                  · exact absurd ((hc _).mpr hf) h6
              rw [hnil]
              rfl

theorem scoreDoc_eval (id : Nat) :
    ∀ (l : List TokSet), (∀ s ∈ l, 0 ≤ binarySearch s.docs (id : Int)) →
      ∀ acc : Int,
        l.foldl (fun sc s =>
          if binarySearch s.docs (id : Int) ≥ 0 then sc + chainW s.srcs else sc) acc =
        acc + (l.map (fun s => chainW s.srcs)).sum := by
  intro l
  induction l with
  | nil => intro _ acc; simp
  | cons s rest ih =>
    intro h acc
    simp only [List.foldl_cons, List.map_cons, List.sum_cons]
    rw [if_pos (h s (List.mem_cons_self _ _))]
    rw [ih (fun t ht => h t (List.mem_cons_of_mem _ ht))]
    omega

/-- C2 amended.  For every doc surviving the conjunction, the computed
score is the sum, over all bag tokens, of the weight of the
highest-weighted field in the token's tag set — where the tag set is
accumulated once per token across *all* docs its termIds touch, not per
doc (hypotheses: the per-token doc lists are strictly sorted, which the
builder guarantees and the decoder preserves). -/
theorem c2_amended_score_per_token (sets : List TokSet)
    (hs : ∀ s ∈ sets, s.docs.Pairwise (· < ·)) :
    ∀ p ∈ scoredResults sets, p.2 = (sets.map (fun s => specMaxW s.srcs)).sum := by
  intro p hp
  simp only [scoredResults] at hp
  obtain ⟨id, hid, rfl⟩ := List.mem_map.mp hp
  have hperm : List.Perm
      (stableSortBy (fun a b => decide (a.docs.length ≤ b.docs.length)) sets) sets :=
    stableSortBy_perm _ sets
  have hfound : ∀ s ∈ stableSortBy (fun a b => decide (a.docs.length ≤ b.docs.length)) sets,
      0 ≤ binarySearch s.docs (id : Int) := by
    intro s hs'
    refine binarySearch_found (hs s (hperm.mem_iff.mp hs')) ?_
    exact mem_intersectAll hid _ (List.mem_map_of_mem (·.docs) hs')
  show scoreDoc _ id = _
  rw [scoreDoc, scoreDoc_eval id _ hfound 0, zero_add]
  have hsum : ((stableSortBy (fun a b => decide (a.docs.length ≤ b.docs.length)) sets).map
      (fun s => chainW s.srcs)).sum = (sets.map (fun s => chainW s.srcs)).sum :=
    (hperm.map _).sum_eq
  rw [hsum]
  simp only [chainW_eq_specMaxW]

/-- Witness for the C2 amended theorem. -/
theorem c2_amended_score_per_token_witness :
    ((0 : Nat), (30 : Int)).2 =
      ((tokenSets exC2State (tokenizeQuery "x")
        (extOnFor exC2State {} (tokenizeQuery "x"))).map
          (fun s => specMaxW s.srcs)).sum := by
  exact c2_amended_score_per_token _ (by decide) ((0 : Nat), (30 : Int)) (by decide)

theorem then_swap (o1 o2 : Ordering) : (o1.then o2).swap = o1.swap.then o2.swap := by
  cases o1 <;> rfl

theorem then_eq_lt {o1 o2 : Ordering} :
    o1.then o2 = .lt ↔ (o1 = .lt ∨ (o1 = .eq ∧ o2 = .lt)) := by
  cases o1 <;> simp [Ordering.then]

theorem then_eq_eq {o1 o2 : Ordering} :
    o1.then o2 = .eq ↔ (o1 = .eq ∧ o2 = .eq) := by
  cases o1 <;> simp [Ordering.then]

/-- The three comparator laws every lexicographic component satisfies:
antisymmetry via `swap`, transitivity of `lt`, and substitutivity of
`eq`. -/
structure CmpLaws {α : Type} (cmp : α → α → Ordering) : Prop where
  swap_eq : ∀ a b, cmp a b = (cmp b a).swap
  lt_trans : ∀ a b c, cmp a b = .lt → cmp b c = .lt → cmp a c = .lt
  eq_subst : ∀ a b, cmp a b = .eq → ∀ c, cmp a c = cmp b c

theorem CmpLaws.eq_substR {α : Type} {cmp : α → α → Ordering} (h : CmpLaws cmp)
    {b c : α} (hbc : cmp b c = .eq) (a : α) : cmp a b = cmp a c := by
  have hcb : cmp c b = .eq := by
    have := h.swap_eq b c
    rw [hbc] at this
    cases hsw : cmp c b
    all_goals simp [hsw, Ordering.swap] at this
    all_goals rfl
  rw [h.swap_eq a b, h.eq_subst b c hbc, ← h.swap_eq a c]

theorem compareLaws {α : Type} [LinearOrder α] :
    CmpLaws (fun a b : α => compare a b) := by
  constructor
  · intro a b
    rcases lt_trichotomy a b with h | h | h
    · rw [compare_lt_iff_lt.mpr h, (compare_gt_iff_gt.mpr h : compare b a = .gt)]
      rfl
    · subst h
      rw [compare_eq_iff_eq.mpr rfl]
      rfl
    · rw [(compare_gt_iff_gt.mpr h : compare a b = .gt), compare_lt_iff_lt.mpr h]
      rfl
  · intro a b c h1 h2
    exact compare_lt_iff_lt.mpr
      (lt_trans (compare_lt_iff_lt.mp h1) (compare_lt_iff_lt.mp h2))
  · intro a b h c
    rw [compare_eq_iff_eq.mp h]

theorem listCmpN_eq_iff : ∀ a b : List Nat, listCmpN a b = .eq ↔ a = b := by
  intro a
  induction a with
  | nil => intro b; cases b <;> simp [listCmpN]
  | cons x xs ih =>
    intro b
    cases b with
    | nil => simp [listCmpN]
    | cons y ys =>
      simp only [listCmpN, then_eq_eq, compare_eq_iff_eq, ih, List.cons.injEq]

theorem listCmpN_swap : ∀ a b : List Nat, listCmpN a b = (listCmpN b a).swap := by
  intro a
  induction a with
  | nil => intro b; cases b <;> rfl
  | cons x xs ih =>
    intro b
    cases b with
    | nil => rfl
    | cons y ys =>
      simp only [listCmpN]
      rw [then_swap, ← ih, ← compareLaws.swap_eq x y]

theorem listCmpN_lt_trans :
    ∀ a b c : List Nat, listCmpN a b = .lt → listCmpN b c = .lt → listCmpN a c = .lt := by
  intro a
  induction a with
  | nil =>
    intro b c hab hbc
    cases b with
    | nil => exact hbc
    | cons y ys =>
      cases c with
      | nil => simp [listCmpN] at hbc
      | cons z zs => simp [listCmpN]
  | cons x xs ih =>
    intro b c hab hbc
    cases b with
    | nil => simp [listCmpN] at hab
    | cons y ys =>
      cases c with
      | nil => simp [listCmpN] at hbc
      | cons z zs =>
        simp only [listCmpN, then_eq_lt] at hab hbc ⊢
        rcases hab with h1 | ⟨h1, h1'⟩ <;> rcases hbc with h2 | ⟨h2, h2'⟩
        · exact Or.inl (compareLaws.lt_trans x y z h1 h2)
        · rw [compare_eq_iff_eq] at h2
          subst h2
          exact Or.inl h1
        · rw [compare_eq_iff_eq] at h1
          subst h1
          exact Or.inl h2
        · rw [compare_eq_iff_eq] at h1
          subst h1
          exact Or.inr ⟨h2, ih ys zs h1' h2'⟩

theorem listCmpNLaws : CmpLaws listCmpN :=
  ⟨listCmpN_swap, listCmpN_lt_trans,
    fun a b h c => by rw [(listCmpN_eq_iff a b).mp h]⟩

theorem thenLaws {α : Type} {c1 c2 : α → α → Ordering}
    (h1 : CmpLaws c1) (h2 : CmpLaws c2) :
    CmpLaws (fun a b => (c1 a b).then (c2 a b)) := by
  constructor
  · intro a b
    rw [h1.swap_eq a b, h2.swap_eq a b, then_swap]
  · intro a b c hab hbc
    simp only [then_eq_lt] at hab hbc ⊢
    rcases hab with ha | ⟨ha, ha'⟩ <;> rcases hbc with hb | ⟨hb, hb'⟩
    · exact Or.inl (h1.lt_trans a b c ha hb)
    · rw [h1.eq_substR hb a] at ha
      exact Or.inl ha
    · rw [h1.eq_subst a b ha]
      exact Or.inl hb
    · rw [h1.eq_subst a b ha]
      exact Or.inr ⟨hb, h2.lt_trans a b c ha' hb'⟩
  · intro a b h c
    simp only [then_eq_eq] at h
    rw [h1.eq_subst a b h.1, h2.eq_subst a b h.2]

theorem pullbackLaws {α β : Type} (f : α → β) {cmp : β → β → Ordering}
    (h : CmpLaws cmp) : CmpLaws (fun a b => cmp (f a) (f b)) :=
  ⟨fun a b => h.swap_eq (f a) (f b),
    fun a b c => h.lt_trans (f a) (f b) (f c),
    fun a b hab c => h.eq_subst (f a) (f b) hab (f c)⟩

theorem flipLaws {α : Type} {cmp : α → α → Ordering} (h : CmpLaws cmp) :
    CmpLaws (fun a b => cmp b a) := by
  constructor
  · intro a b
    exact h.swap_eq b a
  · intro a b c hab hbc
    exact h.lt_trans c b a hbc hab
  · intro a b hab c
    exact h.eq_substR (by
      have := h.swap_eq b a
      rw [hab] at this
      cases hsw : cmp a b <;> rw [hsw] at this <;> first | rfl | exact absurd this (by decide)) c

theorem jsLocaleCmpLaws : CmpLaws jsLocaleCmp := by
  have := thenLaws
    (pullbackLaws (fun s : String => s.data.map primW) listCmpNLaws)
    (pullbackLaws (fun s : String => s.data.map tertW) listCmpNLaws)
  exact this

theorem char_toNat_lt (c : Char) : c.toNat < 1114112 := by
  have heq : c.toNat = c.val.toNat := rfl
  rcases c.valid with h | h <;> omega

theorem char_toNat_inj {c d : Char} (h : c.toNat = d.toNat) : c = d := by
  have := Char.ofNat_toNat c
  rw [h, Char.ofNat_toNat] at this
  exact this.symm

theorem charKey_inj {c d : Char} (hp : primW c = primW d) (ht : tertW c = tertW d) :
    c = d := by
  have hb1 : c.toNat < 1114112 := char_toNat_lt c
  have hb2 : d.toNat < 1114112 := char_toNat_lt d
  refine char_toNat_inj ?_
  simp only [primW, tertW] at hp ht
  split_ifs at hp ht <;> omega

theorem mapKey_inj : ∀ l1 l2 : List Char,
    l1.map primW = l2.map primW → l1.map tertW = l2.map tertW → l1 = l2 := by
  intro l1
  induction l1 with
  | nil => intro l2 hp _; cases l2 <;> simp_all
  | cons c cs ih =>
    intro l2 hp ht
    cases l2 with
    | nil => simp at hp
    | cons d ds =>
      simp only [List.map_cons, List.cons.injEq] at hp ht
      rw [charKey_inj hp.1 ht.1, ih ds hp.2 ht.2]

theorem jsLocaleCmp_eq_iff {a b : String} : jsLocaleCmp a b = .eq ↔ a = b := by
  constructor
  · intro h
    simp only [jsLocaleCmp, then_eq_eq, listCmpN_eq_iff] at h
    have hd := mapKey_inj a.data b.data h.1 h.2
    cases a
    cases b
    exact congrArg String.mk hd
  · intro h
    subst h
    simp only [jsLocaleCmp]
    rw [(listCmpN_eq_iff _ _).mpr rfl, (listCmpN_eq_iff _ _).mpr rfl]
    rfl

theorem ite_ne_then (o x : Ordering) : (if o ≠ .eq then o else x) = o.then x := by
  cases o <;> simp [Ordering.then]

theorem resCmp_eq_amended (st : EngineState) (parse : String → Option Entry) :
    ∀ a b, resCmp st parse a b = amendedC3Cmp st parse a b := by
  intro a b
  simp only [resCmp, amendedC3Cmp, ite_ne_then]
  congr 1
  congr 1
  by_cases h : ((getEntryById st parse (a.1 : Int)).map (·.title)).getD "" =
      ((getEntryById st parse (b.1 : Int)).map (·.title)).getD ""
  · rw [if_neg (by simpa using h)]
    rw [jsLocaleCmp_eq_iff.mpr h]
    rfl
  · rw [if_pos h]
    cases hlc : jsLocaleCmp (((getEntryById st parse (a.1 : Int)).map (·.title)).getD "")
        (((getEntryById st parse (b.1 : Int)).map (·.title)).getD "") with
    | eq => exact absurd (jsLocaleCmp_eq_iff.mp hlc) h
    | lt => rfl
    | gt => rfl

theorem resCmpLaws (st : EngineState) (parse : String → Option Entry) :
    CmpLaws (resCmp st parse) := by
  have hl : CmpLaws (amendedC3Cmp st parse) := by
    have h1 : CmpLaws (fun a b : Nat × Int => compare b.2 a.2) :=
      flipLaws (pullbackLaws (fun r : Nat × Int => r.2) compareLaws)
    have h2 : CmpLaws (fun a b : Nat × Int =>
        compare (((getEntryById st parse (b.1 : Int)).bind (·.year)).getD 0)
          (((getEntryById st parse (a.1 : Int)).bind (·.year)).getD 0)) :=
      flipLaws (pullbackLaws
        (fun r : Nat × Int => ((getEntryById st parse (r.1 : Int)).bind (·.year)).getD 0)
        compareLaws)
    have h3 : CmpLaws (fun a b : Nat × Int =>
        jsLocaleCmp (((getEntryById st parse (a.1 : Int)).map (·.title)).getD "")
          (((getEntryById st parse (b.1 : Int)).map (·.title)).getD "")) :=
      pullbackLaws (fun r : Nat × Int =>
        ((getEntryById st parse (r.1 : Int)).map (·.title)).getD "") jsLocaleCmpLaws
    have h4 : CmpLaws (fun a b : Nat × Int =>
        jsLocaleCmp (((getEntryById st parse (a.1 : Int)).map (·.key)).getD "")
          (((getEntryById st parse (b.1 : Int)).map (·.key)).getD "")) :=
      pullbackLaws (fun r : Nat × Int =>
        ((getEntryById st parse (r.1 : Int)).map (·.key)).getD "") jsLocaleCmpLaws
    exact thenLaws h1 (thenLaws h2 (thenLaws h3 h4))
  constructor
  · intro a b
    rw [resCmp_eq_amended st parse a b, resCmp_eq_amended st parse b a]
    exact hl.swap_eq a b
  · intro a b c h1 h2
    rw [resCmp_eq_amended st parse a b] at h1
    rw [resCmp_eq_amended st parse b c] at h2
    rw [resCmp_eq_amended st parse a c]
    exact hl.lt_trans a b c h1 h2
  · intro a b h c
    rw [resCmp_eq_amended st parse a b] at h
    rw [resCmp_eq_amended st parse a c, resCmp_eq_amended st parse b c]
    exact hl.eq_subst a b h c

theorem resLe_eq_true_iff (st : EngineState) (parse : String → Option Entry)
    (a b : Nat × Int) : resLe st parse a b = true ↔ resCmp st parse a b ≠ .gt := by
  simp [resLe]

theorem resLe_total (st : EngineState) (parse : String → Option Entry) :
    ∀ a b, resLe st parse a b = true ∨ resLe st parse b a = true := by
  intro a b
  rw [resLe_eq_true_iff, resLe_eq_true_iff]
  by_cases h : resCmp st parse a b = .gt
  · right
    have := (resCmpLaws st parse).swap_eq a b
    rw [h] at this
    intro hc
    rw [hc] at this
    simp [Ordering.swap] at this
  · exact Or.inl h

theorem resLe_trans (st : EngineState) (parse : String → Option Entry) :
    ∀ a b c, resLe st parse a b = true → resLe st parse b c = true →
      resLe st parse a c = true := by
  intro a b c hab hbc
  rw [resLe_eq_true_iff] at hab hbc ⊢
  intro hac
  have laws := resCmpLaws st parse
  cases h1 : resCmp st parse a b with
  | gt => exact hab h1
  | eq =>
    rw [laws.eq_subst a b h1 c] at hac
    exact hbc hac
  | lt =>
    cases h2 : resCmp st parse b c with
    | gt => exact hbc h2
    | eq =>
      rw [laws.eq_substR h2 a] at h1
      rw [h1] at hac
      simp at hac
    | lt =>
      have := laws.lt_trans a b c h1 h2
      rw [this] at hac
      simp at hac

/-- C3 amended.  The result list is sorted exactly by the engine's
comparator — score descending, year descending with missing year 0, then
title and key ascending under the locale collation — and is a permutation
of its input; the comparator is precisely the lexicographic chain
`amendedC3Cmp` (which replaces the claim's byte-wise tie-breaks with
`localeCompare`).  The sort is a deterministic function of the query,
options and loaded state. -/
theorem c3_sorted_by_engine_comparator (st : EngineState)
    (parse : String → Option Entry) (l : List (Nat × Int)) :
    (sortResults st parse l).Pairwise (fun a b => resLe st parse a b = true) ∧
    List.Perm (sortResults st parse l) l ∧
    (∀ a b, resCmp st parse a b = amendedC3Cmp st parse a b) :=
  ⟨stableSortBy_sorted _ (resLe_total st parse) (resLe_trans st parse) l,
    stableSortBy_perm _ l, resCmp_eq_amended st parse⟩

theorem strictIncr_chain' : ∀ l : List Nat, strictIncr l = true →
    List.Chain' (· < ·) l := by
  intro l
  induction l with
  | nil => intro _; exact List.chain'_nil
  | cons a l ih =>
    cases l with
    | nil => intro _; simp
    | cons b m =>
      intro h
      simp only [strictIncr, Bool.and_eq_true, decide_eq_true_eq] at h
      rw [List.chain'_cons]
      exact ⟨h.1, ih h.2⟩

theorem wuAux_len_pos (fuel n : Nat) : 1 ≤ (wuAux fuel n).length := by
  cases fuel with
  | zero => simp [wuAux]
  | succ f =>
    simp only [wuAux]
    split
    · simp
    · simp

theorem writeUVarint_len_pos (n : Nat) : 1 ≤ (writeUVarint n).length :=
  wuAux_len_pos n n

theorem lor_mul_pow_eq_add {x c s : Nat} (hx : x < 2 ^ s) :
    x ||| c * 2 ^ s = x + c * 2 ^ s := by
  have h := Nat.mul_add_lt_is_or hx c
  rw [Nat.mul_comm c (2 ^ s), Nat.lor_comm, ← h]
  ring

theorem uvarintFrom_single (n : Nat) (rest : List Nat) (x s : Nat)
    (hn : n < 128) (hx : x < 2 ^ s) (hb : n < 2 ^ (32 - s)) (hs : s < 32) :
    uvarintFrom (n :: rest) x s = (x + n * 2 ^ s, 1) := by
  have hsm : s % 32 = s := Nat.mod_eq_of_lt hs
  have hp : (2 : Nat) ^ (32 - s) * 2 ^ s = 2 ^ 32 := Nat.pow_sub_mul_pow 2 (le_of_lt hs)
  have hlt : n * 2 ^ s < 2 ^ 32 := by
    have h1 : n * 2 ^ s < 2 ^ (32 - s) * 2 ^ s :=
      mul_lt_mul_of_pos_right hb (by positivity)
    omega
  simp only [uvarintFrom]
  rw [if_pos hn, hsm, Nat.shiftLeft_eq, Nat.mod_eq_of_lt hlt, lor_mul_pow_eq_add hx]

/-- Decoding the builder's varint bytes from any accumulator state that
holds fewer than `2 ^ s` bits recovers the encoded value shifted into
place, consuming exactly the emitted bytes.  The JS 32-bit truncation in
`uvarint` is inert because the value fits. -/
theorem uvarintFrom_enc : ∀ fuel : Nat, ∀ n : Nat, ∀ rest : List Nat, ∀ x s : Nat,
    n ≤ fuel + 1 → x < 2 ^ s → n < 2 ^ (32 - s) → s < 32 →
    uvarintFrom (wuAux fuel n ++ rest) x s =
      (x + n * 2 ^ s, (wuAux fuel n).length) := by
  intro fuel
  induction fuel with
  | zero =>
    intro n rest x s h1 hx hb hs
    have hn : n < 128 := by omega
    simpa [wuAux] using uvarintFrom_single n rest x s hn hx hb hs
  | succ f ih =>
    intro n rest x s h1 hx hb hs
    by_cases hn : n ≥ 128
    · have hsr : n >>> 7 = n / 128 := by
        rw [Nat.shiftRight_eq_div_pow]
      have hand : n &&& 127 = n % 128 := Nat.and_pow_two_sub_one_eq_mod n 7
      have hs25 : s < 25 := by
        by_contra hc
        push_neg at hc
        have h2 : (2 : Nat) ^ (32 - s) ≤ 2 ^ 7 :=
          Nat.pow_le_pow_right (by norm_num) (by omega)
        have h3 : (2 : Nat) ^ 7 = 128 := by norm_num
        omega
      have hbyte : n &&& 127 ||| 128 = n % 128 + 128 := by
        rw [hand]
        have h3 : n % 128 ||| 1 * 2 ^ 7 = n % 128 + 1 * 2 ^ 7 :=
          lor_mul_pow_eq_add (by norm_num [Nat.mod_lt n])
        norm_num at h3
        exact h3
      simp only [wuAux, if_pos hn, hsr, List.cons_append]
      rw [hbyte]
      simp only [uvarintFrom]
      rw [if_neg (by omega : ¬ n % 128 + 128 < 128)]
      have hand2 : n % 128 + 128 &&& 127 = n % 128 := by
        have h4 : (n % 128 + 128) &&& 127 = (n % 128 + 128) % 128 :=
          Nat.and_pow_two_sub_one_eq_mod (n % 128 + 128) 7
        omega
      have hsm : s % 32 = s := Nat.mod_eq_of_lt hs
      have hlt32 : n % 128 * 2 ^ s < 2 ^ 32 := by
        have hps : (2 : Nat) ^ (s + 7) ≤ 2 ^ 32 := Nat.pow_le_pow_right (by norm_num) (by omega)
        have hpa : (2 : Nat) ^ (s + 7) = 2 ^ s * 128 := by
          rw [pow_add]
          norm_num
        have hm : n % 128 ≤ 127 := by omega
        have := mul_le_mul_right' hm (2 ^ s)
        nlinarith [pow_pos (show (0 : Nat) < 2 by norm_num) s]
      rw [hand2, hsm, Nat.shiftLeft_eq, Nat.mod_eq_of_lt hlt32, lor_mul_pow_eq_add hx]
      have hx' : x + n % 128 * 2 ^ s < 2 ^ (s + 7) := by
        have hpa : (2 : Nat) ^ (s + 7) = 2 ^ s * 128 := by
          rw [pow_add]
          norm_num
        have hm : n % 128 ≤ 127 := by omega
        have h5 := mul_le_mul_right' hm (2 ^ s)
        nlinarith [pow_pos (show (0 : Nat) < 2 by norm_num) s]
      have hb' : n / 128 < 2 ^ (32 - (s + 7)) := by
        rw [Nat.div_lt_iff_lt_mul (by norm_num : (0 : Nat) < 128)]
        have hsplit : (2 : Nat) ^ (32 - s) = 2 ^ (32 - (s + 7)) * 128 := by
          have h6 : 32 - s = (32 - (s + 7)) + 7 := by omega
          rw [h6, pow_add]
          norm_num
        omega
      have hfe : n / 128 ≤ f + 1 := by omega
      rw [ih (n / 128) rest (x + n % 128 * 2 ^ s) (s + 7) hfe hx' hb' (by omega)]
      have hmd : n % 128 + 128 * (n / 128) = n := Nat.mod_add_div n 128
      have hp7 : (2 : Nat) ^ (s + 7) = 2 ^ s * 128 := by
        rw [pow_add]
        norm_num
      simp only [Prod.mk.injEq, List.length_cons]
      constructor
      · rw [hp7]
        have hr : x + n % 128 * 2 ^ s + n / 128 * (2 ^ s * 128)
            = x + (n % 128 + 128 * (n / 128)) * 2 ^ s := by ring
        rw [hr, hmd]
      · trivial
    · push_neg at hn
      have hw : wuAux (f + 1) n = [n] := by
        simp only [wuAux]
        rw [if_neg (by omega)]
      rw [hw]
      simpa using uvarintFrom_single n rest x s hn hx hb hs

/-- `uvarint` positioned at the start of a `writeUVarint` block inside a
larger buffer reads back the encoded value and stops right after it. -/
theorem uvarint_enc (n : Nat) (pre rest : List Nat) (hn : n < 2 ^ 32) :
    uvarint (pre ++ (writeUVarint n ++ rest)) pre.length =
      (n, pre.length + (writeUVarint n).length) := by
  have h := uvarintFrom_enc n n rest 0 0 (Nat.le_succ n) (by norm_num)
    (by simpa using hn) (by norm_num)
  simp only [uvarint, List.drop_left, writeUVarint]
  rw [h]
  simp

/-- The decoder's position loop recovers the builder's position list from
`encDeltas` and ends right after its bytes. -/
theorem readDeltas_enc : ∀ ps : List Nat, ∀ pre rest : List Nat, ∀ lastPos : Nat,
    List.Chain' (· ≤ ·) (lastPos :: ps) → (∀ q ∈ ps, q < 2 ^ 32) →
    readDeltas (pre ++ (encDeltas lastPos ps ++ rest)) ps.length pre.length lastPos =
      (ps, pre.length + (encDeltas lastPos ps).length) := by
  intro ps
  induction ps with
  | nil =>
    intro pre rest lastPos _ _
    simp [readDeltas, encDeltas]
  | cons p ps ih =>
    intro pre rest lastPos hch hb
    rw [List.chain'_cons] at hch
    obtain ⟨hle, hch'⟩ := hch
    have hpb : p < 2 ^ 32 := hb p (by simp)
    simp only [encDeltas, List.length_cons, readDeltas, List.append_assoc]
    have h1 : uvarint (pre ++ (writeUVarint (p - lastPos) ++ (encDeltas p ps ++ rest)))
          pre.length
        = (p - lastPos, pre.length + (writeUVarint (p - lastPos)).length) :=
      uvarint_enc _ _ _ (by omega)
    have hpos : lastPos + (p - lastPos) = p := by omega
    have h2 : readDeltas (pre ++ (writeUVarint (p - lastPos) ++ (encDeltas p ps ++ rest)))
          ps.length (pre.length + (writeUVarint (p - lastPos)).length) p
        = (ps, pre.length + ((writeUVarint (p - lastPos)).length + (encDeltas p ps).length)) := by
      have h3 := ih (pre ++ writeUVarint (p - lastPos)) rest p hch'
        (fun q hq => hb q (by simp [hq]))
      simpa [List.append_assoc, List.length_append, Nat.add_assoc] using h3
    simp only [h1, hpos, h2, List.length_append]

theorem encodePositions_len_ge :
    ∀ entries : List (Nat × List Nat), ∀ lastDoc : Nat,
    entries.length ≤ (encodePositions lastDoc entries).length := by
  intro entries
  induction entries with
  | nil => simp [encodePositions]
  | cons e es ih =>
    intro lastDoc
    obtain ⟨d, ps⟩ := e
    simp only [encodePositions, List.length_cons, List.length_append]
    have h1 := writeUVarint_len_pos (d - lastDoc)
    have h2 := ih d
    omega

theorem encodeTF_len_ge : ∀ entries : List (Nat × Nat), ∀ lastDoc : Nat,
    entries.length ≤ (encodeTF lastDoc entries).length := by
  intro entries
  induction entries with
  | nil => simp [encodeTF]
  | cons e es ih =>
    intro lastDoc
    obtain ⟨d, tf⟩ := e
    simp only [encodeTF, List.length_cons, List.length_append]
    have h1 := writeUVarint_len_pos (d - lastDoc)
    have h2 := ih d
    omega

/-- Main positional round trip: the decoder loop run over the bytes the
builder emitted for a sorted doc-entry map — framed by arbitrary
surrounding bytes — returns exactly the docIds and position arrays and
stops at the declared end. -/
theorem rpAux_encPos : ∀ fuel : Nat, ∀ entries : List (Nat × List Nat),
    ∀ pre rest : List Nat, ∀ lastDoc : Nat,
    entries.length ≤ fuel →
    List.Chain' (· ≤ ·) (lastDoc :: entries.map (·.1)) →
    (∀ e ∈ entries, e.1 < 2 ^ 32 ∧ e.2.length < 2 ^ 32 ∧
      List.Chain' (· ≤ ·) (0 :: e.2) ∧ ∀ q ∈ e.2, q < 2 ^ 32) →
    rpAux (pre ++ (encodePositions lastDoc entries ++ rest)) true
        (pre.length + (encodePositions lastDoc entries).length)
        fuel pre.length lastDoc =
      ⟨entries.map (·.1), entries.map (·.2),
        pre.length + (encodePositions lastDoc entries).length⟩ := by
  intro fuel
  induction fuel with
  | zero =>
    intro entries pre rest lastDoc hlen _ _
    have he : entries = [] := List.length_eq_zero.mp (Nat.le_zero.mp hlen)
    subst he
    simp [rpAux, encodePositions]
  | succ f ih =>
    intro entries pre rest lastDoc hlen hch hbnd
    cases entries with
    | nil => simp [rpAux, encodePositions]
    | cons e es =>
      obtain ⟨docId, pos⟩ := e
      obtain ⟨hd32x, hl32x, hpchx, hpbx⟩ := hbnd (docId, pos) (by simp)
      have hd32 : docId < 2 ^ 32 := hd32x
      have hl32 : pos.length < 2 ^ 32 := hl32x
      have hpch : List.Chain' (· ≤ ·) (0 :: pos) := hpchx
      have hpb : ∀ q ∈ pos, q < 2 ^ 32 := hpbx
      simp only [List.map_cons] at hch
      rw [List.chain'_cons] at hch
      obtain ⟨hle, hch'⟩ := hch
      have hw1 := writeUVarint_len_pos (docId - lastDoc)
      simp only [List.length_cons, List.length_append] at hlen
      simp only [encodePositions, List.append_assoc, List.length_append]
      simp only [rpAux]
      rw [if_pos (show pre.length < pre.length + ((writeUVarint (docId - lastDoc)).length +
        ((writeUVarint pos.length).length + ((encDeltas 0 pos).length +
          (encodePositions docId es).length))) from by omega)]
      have h1 : uvarint (pre ++ (writeUVarint (docId - lastDoc) ++ (writeUVarint pos.length ++
            (encDeltas 0 pos ++ (encodePositions docId es ++ rest))))) pre.length
          = (docId - lastDoc, pre.length + (writeUVarint (docId - lastDoc)).length) :=
        uvarint_enc _ _ _ (by omega)
      have hpos : lastDoc + (docId - lastDoc) = docId := by omega
      have h2 : uvarint (pre ++ (writeUVarint (docId - lastDoc) ++ (writeUVarint pos.length ++
            (encDeltas 0 pos ++ (encodePositions docId es ++ rest)))))
            (pre.length + (writeUVarint (docId - lastDoc)).length)
          = (pos.length, pre.length + ((writeUVarint (docId - lastDoc)).length +
              (writeUVarint pos.length).length)) := by
        have h3 := uvarint_enc pos.length (pre ++ writeUVarint (docId - lastDoc))
          (encDeltas 0 pos ++ (encodePositions docId es ++ rest)) (by omega)
        simpa [List.append_assoc, List.length_append, Nat.add_assoc] using h3
      have h3 : readDeltas (pre ++ (writeUVarint (docId - lastDoc) ++ (writeUVarint pos.length ++
            (encDeltas 0 pos ++ (encodePositions docId es ++ rest))))) pos.length
            (pre.length + ((writeUVarint (docId - lastDoc)).length +
              (writeUVarint pos.length).length)) 0
          = (pos, pre.length + ((writeUVarint (docId - lastDoc)).length +
              ((writeUVarint pos.length).length + (encDeltas 0 pos).length))) := by
        have h4 := readDeltas_enc pos
          (pre ++ writeUVarint (docId - lastDoc) ++ writeUVarint pos.length)
          (encodePositions docId es ++ rest) 0 hpch hpb
        simpa [List.append_assoc, List.length_append, Nat.add_assoc] using h4
      have h4 : rpAux (pre ++ (writeUVarint (docId - lastDoc) ++ (writeUVarint pos.length ++
            (encDeltas 0 pos ++ (encodePositions docId es ++ rest))))) true
            (pre.length + ((writeUVarint (docId - lastDoc)).length +
              ((writeUVarint pos.length).length + ((encDeltas 0 pos).length +
                (encodePositions docId es).length)))) f
            (pre.length + ((writeUVarint (docId - lastDoc)).length +
              ((writeUVarint pos.length).length + (encDeltas 0 pos).length))) docId
          = ⟨es.map (·.1), es.map (·.2),
              pre.length + ((writeUVarint (docId - lastDoc)).length +
                ((writeUVarint pos.length).length + ((encDeltas 0 pos).length +
                  (encodePositions docId es).length)))⟩ := by
        have h5 := ih es
          (pre ++ writeUVarint (docId - lastDoc) ++ writeUVarint pos.length ++ encDeltas 0 pos)
          rest docId (by omega) hch'
          (fun q hq => hbnd q (by simp [hq]))
        simpa [List.append_assoc, List.length_append, Nat.add_assoc] using h5
      simp only [h1, hpos, h2, h3, h4]
      simp

/-- TF round trip: the non-positional decoder loop over `encodeTF` bytes
recovers exactly the docId sequence. -/
theorem rpAux_encTF : ∀ fuel : Nat, ∀ entries : List (Nat × Nat),
    ∀ pre rest : List Nat, ∀ lastDoc : Nat,
    entries.length ≤ fuel →
    List.Chain' (· ≤ ·) (lastDoc :: entries.map (·.1)) →
    (∀ e ∈ entries, e.1 < 2 ^ 32 ∧ e.2 < 2 ^ 32) →
    rpAux (pre ++ (encodeTF lastDoc entries ++ rest)) false
        (pre.length + (encodeTF lastDoc entries).length)
        fuel pre.length lastDoc =
      ⟨entries.map (·.1), [], pre.length + (encodeTF lastDoc entries).length⟩ := by
  intro fuel
  induction fuel with
  | zero =>
    intro entries pre rest lastDoc hlen _ _
    have he : entries = [] := List.length_eq_zero.mp (Nat.le_zero.mp hlen)
    subst he
    simp [rpAux, encodeTF]
  | succ f ih =>
    intro entries pre rest lastDoc hlen hch hbnd
    cases entries with
    | nil => simp [rpAux, encodeTF]
    | cons e es =>
      obtain ⟨docId, tf⟩ := e
      obtain ⟨hd32x, ht32x⟩ := hbnd (docId, tf) (by simp)
      have hd32 : docId < 2 ^ 32 := hd32x
      have ht32 : tf < 2 ^ 32 := ht32x
      simp only [List.map_cons] at hch
      rw [List.chain'_cons] at hch
      obtain ⟨hle, hch'⟩ := hch
      have hw1 := writeUVarint_len_pos (docId - lastDoc)
      simp only [List.length_cons] at hlen
      simp only [encodeTF, List.append_assoc, List.length_append]
      simp only [rpAux]
      rw [if_pos (show pre.length < pre.length + ((writeUVarint (docId - lastDoc)).length +
        ((writeUVarint tf).length + (encodeTF docId es).length)) from by omega)]
      have h1 : uvarint (pre ++ (writeUVarint (docId - lastDoc) ++ (writeUVarint tf ++
            (encodeTF docId es ++ rest)))) pre.length
          = (docId - lastDoc, pre.length + (writeUVarint (docId - lastDoc)).length) :=
        uvarint_enc _ _ _ (by omega)
      have hpos : lastDoc + (docId - lastDoc) = docId := by omega
      have h2 : uvarint (pre ++ (writeUVarint (docId - lastDoc) ++ (writeUVarint tf ++
            (encodeTF docId es ++ rest))))
            (pre.length + (writeUVarint (docId - lastDoc)).length)
          = (tf, pre.length + ((writeUVarint (docId - lastDoc)).length +
              (writeUVarint tf).length)) := by
        have h3 := uvarint_enc tf (pre ++ writeUVarint (docId - lastDoc))
          (encodeTF docId es ++ rest) (by omega)
        simpa [List.append_assoc, List.length_append, Nat.add_assoc] using h3
      have h4 : rpAux (pre ++ (writeUVarint (docId - lastDoc) ++ (writeUVarint tf ++
            (encodeTF docId es ++ rest)))) false
            (pre.length + ((writeUVarint (docId - lastDoc)).length +
              ((writeUVarint tf).length + (encodeTF docId es).length))) f
            (pre.length + ((writeUVarint (docId - lastDoc)).length +
              (writeUVarint tf).length)) docId
          = ⟨es.map (·.1), [],
              pre.length + ((writeUVarint (docId - lastDoc)).length +
                ((writeUVarint tf).length + (encodeTF docId es).length))⟩ := by
        have h5 := ih es
          (pre ++ writeUVarint (docId - lastDoc) ++ writeUVarint tf) rest docId
          (by omega) hch' (fun q hq => hbnd q (by simp [hq]))
        simpa [List.append_assoc, List.length_append, Nat.add_assoc] using h5
      simp only [h1, hpos, h2, h4]
      simp

/-- **C7.**  For every posting list emitted by the builder's encoder —
docIds strictly increasing with all values below `2 ^ 32`, positions
strictly increasing within each doc — decoding its byte range with the
engine's decoder recovers exactly the original docId sequence and, for
positional fields, the original position arrays; re-encoding the decoded
posting list yields the original bytes; and the TF encoder's docId
sequence is likewise recovered by the non-positional decoder. -/
theorem c7_postings_roundtrip (entries : List (Nat × List Nat)) (tfs : List (Nat × Nat))
    (hdocs : strictIncr (entries.map (·.1)) = true)
    (hbnd : ∀ e ∈ entries, e.1 < 2 ^ 32 ∧ e.2.length < 2 ^ 32 ∧
      strictIncr e.2 = true ∧ ∀ q ∈ e.2, q < 2 ^ 32)
    (htf : strictIncr (tfs.map (·.1)) = true)
    (htfb : ∀ e ∈ tfs, e.1 < 2 ^ 32 ∧ e.2 < 2 ^ 32) :
    readPostings (encodePositions 0 entries) 0 (encodePositions 0 entries).length true =
        ⟨entries.map (·.1), entries.map (·.2), (encodePositions 0 entries).length⟩ ∧
      encodePositions 0 (List.zip
          (readPostings (encodePositions 0 entries) 0
            (encodePositions 0 entries).length true).docs
          (readPostings (encodePositions 0 entries) 0
            (encodePositions 0 entries).length true).poss)
        = encodePositions 0 entries ∧
      readPostings (encodeTF 0 tfs) 0 (encodeTF 0 tfs).length false =
        ⟨tfs.map (·.1), [], (encodeTF 0 tfs).length⟩ := by
  have hch1 : List.Chain' (· ≤ ·) ((0 : Nat) :: entries.map (·.1)) := by
    rw [List.chain'_cons']
    exact ⟨fun b _ => Nat.zero_le b,
      (strictIncr_chain' _ hdocs).imp (fun a b h => le_of_lt h)⟩
  have hbnd' : ∀ e ∈ entries, e.1 < 2 ^ 32 ∧ e.2.length < 2 ^ 32 ∧
      List.Chain' (· ≤ ·) (0 :: e.2) ∧ ∀ q ∈ e.2, q < 2 ^ 32 := by
    intro e he
    obtain ⟨h1, h2, h3, h4⟩ := hbnd e he
    refine ⟨h1, h2, ?_, h4⟩
    rw [List.chain'_cons']
    exact ⟨fun b _ => Nat.zero_le b,
      (strictIncr_chain' _ h3).imp (fun a b h => le_of_lt h)⟩
  have hmain := rpAux_encPos (encodePositions 0 entries).length entries [] [] 0
    (encodePositions_len_ge entries 0) hch1 hbnd'
  have h1 : readPostings (encodePositions 0 entries) 0
        (encodePositions 0 entries).length true =
      ⟨entries.map (·.1), entries.map (·.2), (encodePositions 0 entries).length⟩ := by
    simpa [readPostings] using hmain
  refine ⟨h1, ?_, ?_⟩
  · simp only [h1]
    have hz : List.zip (entries.map (·.1)) (entries.map (·.2)) = entries := by
      rw [List.zip_map']
      simp
    rw [hz]
  · have hch2 : List.Chain' (· ≤ ·) ((0 : Nat) :: tfs.map (·.1)) := by
      rw [List.chain'_cons']
      exact ⟨fun b _ => Nat.zero_le b,
        (strictIncr_chain' _ htf).imp (fun a b h => le_of_lt h)⟩
    have hmain2 := rpAux_encTF (encodeTF 0 tfs).length tfs [] [] 0
      (encodeTF_len_ge tfs 0) hch2 htfb
    simpa [readPostings] using hmain2

/-- Witness for C7: the concrete posting map `[(0, [0, 3]), (200, [1, 130])]`
(and TF map `[(0, 2), (5, 1)]`) round-trips through the encoder and
decoder. -/
theorem c7_postings_roundtrip_witness :
    readPostings (encodePositions 0 [(0, [0, 3]), (200, [1, 130])]) 0
        (encodePositions 0 [(0, [0, 3]), (200, [1, 130])]).length true =
      ⟨[(0, [0, 3]), (200, [1, 130])].map (fun e : Nat × List Nat => e.1),
        [(0, [0, 3]), (200, [1, 130])].map (fun e : Nat × List Nat => e.2),
        (encodePositions 0 [(0, [0, 3]), (200, [1, 130])]).length⟩ ∧
    encodePositions 0 (List.zip
        (readPostings (encodePositions 0 [(0, [0, 3]), (200, [1, 130])]) 0
          (encodePositions 0 [(0, [0, 3]), (200, [1, 130])]).length true).docs
        (readPostings (encodePositions 0 [(0, [0, 3]), (200, [1, 130])]) 0
          (encodePositions 0 [(0, [0, 3]), (200, [1, 130])]).length true).poss)
      = encodePositions 0 [(0, [0, 3]), (200, [1, 130])] ∧
    readPostings (encodeTF 0 [(0, 2), (5, 1)]) 0 (encodeTF 0 [(0, 2), (5, 1)]).length false =
      ⟨[(0, 2), (5, 1)].map (fun e : Nat × Nat => e.1), [],
        (encodeTF 0 [(0, 2), (5, 1)]).length⟩ :=
  c7_postings_roundtrip [(0, [0, 3]), (200, [1, 130])] [(0, 2), (5, 1)]
    (by decide) (by decide) (by decide) (by decide)

/-- Witness for C10 at concrete inputs. -/
theorem c10_getEntry_total_witness :
    getEntryById exC1State exC1Parse (-3) = none ∧
    handleGet exC1State exC1Parse (.inr "nope") = none ∧
    getEntryById exC1State (fun _ => none) 0 = none := by
  refine ⟨(c10_getEntry_total exC1State exC1Parse).1 (-3) (Or.inl (by decide)),
    (c10_getEntry_total exC1State exC1Parse).2.1 "nope" (by decide),
    (c10_getEntry_total exC1State (fun _ => none)).2.2 0 (by decide) (by decide) rfl⟩

end CB
